/-
Verification development for the ruget-semver version/range engine
(crates/ruget-semver/src/lib.rs, crates/ruget-semver/src/range.rs and
crates/ruget-pick-version/src/lib.rs), shallowly embedded in Lean.

Machine integers (u64) are modelled as Nat: the parser enforces the
MAX_SAFE_INTEGER ceiling on version-core components and str::parse
enforces the u64 range on identifier components, so no arithmetic in the
embedded code can overflow (the only arithmetic is x + 1 on values at
most MAX_SAFE_INTEGER).
-/
import Mathlib

namespace Turron

/-! ## Definitions -/

/-- Rust u64::cmp, restricted to the values that occur (all below 2^64). -/
def natCmp (a b : Nat) : Ordering :=
  if a < b then .lt else if a = b then .eq else .gt

/-- The laws shared by every comparison function in the source that is an
actual total preorder: swap-antisymmetry, transitivity of strict less,
and substitutivity of comparison-equality on the left. -/
structure LawCmp {α : Type _} (c : α → α → Ordering) : Prop where
  swap : ∀ a b, (c a b).swap = c b a
  lt_trans : ∀ {a b d}, c a b = .lt → c b d = .lt → c a d = .lt
  eq_l : ∀ {a b d}, c a b = .eq → c a d = c b d

/-- Lexicographic comparison of lists, one element at a time; a strict
prefix compares less. This is Rust Vec::cmp and str::cmp. -/
def listCmp (c : α → α → Ordering) : List α → List α → Ordering
  | [], [] => .eq
  | [], _ :: _ => .lt
  | _ :: _, [] => .gt
  | x :: xs, y :: ys => ((c x y).then (listCmp c xs ys))

/-- Rust str::to_uppercase, as used by the Identifier Ord/PartialEq impls.
Modelled per character with Char.toUpper; this matches Rust exactly on
ASCII strings, which covers every identifier the parser can produce
(identifier characters are restricted to ASCII alphanumerics and dashes). -/
def upperChars (s : List Char) : List Char := s.map Char.toUpper

/-- An identifier inside pre-release or build metadata. -/
inductive Identifier where
  /-- An identifier that is solely numbers. -/
  | numeric (n : Nat)
  /-- An identifier with letters and numbers. -/
  | alphaNumeric (s : List Char)
deriving DecidableEq, Repr

/-- Rust str::cmp on uppercased strings is byte-lexicographic, which for
our List Char model is codepoint-lexicographic. -/
def charCmp (a b : Char) : Ordering := natCmp a.toNat b.toNat

/-- impl Ord for Identifier (lib.rs 203-216). -/
def Identifier.cmp : Identifier → Identifier → Ordering
  | .numeric x, .numeric y => natCmp x y
  | .alphaNumeric x, .alphaNumeric y => listCmp charCmp (upperChars x) (upperChars y)
  | .alphaNumeric _, .numeric _ => .gt
  | .numeric _, .alphaNumeric _ => .lt

/-- impl PartialEq for Identifier (lib.rs 177-187): alphanumerics compare
case-insensitively. -/
def Identifier.beq : Identifier → Identifier → Bool
  | .numeric x, .numeric y => x == y
  | .alphaNumeric x, .alphaNumeric y => upperChars x == upperChars y
  | _, _ => false

/-- Rust Vec/slice PartialEq with a custom element equality. -/
def listBeq (e : α → α → Bool) : List α → List α → Bool
  | [], [] => true
  | x :: xs, y :: ys => e x y && listBeq e xs ys
  | _, _ => false

/-- The Version struct (lib.rs 227-235); field order as in the source. -/
structure Version where
  major : Nat
  minor : Nat
  patch : Nat
  revision : Nat
  build : List Identifier
  pre_release : List Identifier
deriving DecidableEq, Repr

/-- Convenience constructor used by concrete test vectors below (fields
in reading order major.minor.patch.revision-pre+build). -/
def mkVersion (major minor patch revision : Nat)
    (pre_release build : List Identifier) : Version :=
  { major := major, minor := minor, patch := patch, revision := revision,
    build := build, pre_release := pre_release }

/-- The pre-release tail of impl Ord for Version (lib.rs 438-447): the
match on (self.pre_release.len(), other.pre_release.len()). -/
def preCmp (xs ys : List Identifier) : Ordering :=
  match xs, ys with
  | [], [] => .eq
  | [], _ :: _ => .gt
  | _ :: _, [] => .lt
  | x :: xs, y :: ys => listCmp Identifier.cmp (x :: xs) (y :: ys)

/-- impl Ord for Version (lib.rs 412-449): compare major, minor, patch,
revision in order with early return, then the pre-release rule.
Ordering.then is exactly the early-return chaining of the source. -/
def Version.cmp (a b : Version) : Ordering :=
  (natCmp a.major b.major).then
    ((natCmp a.minor b.minor).then
      ((natCmp a.patch b.patch).then
        ((natCmp a.revision b.revision).then
          (preCmp a.pre_release b.pre_release))))

/-- Rust PartialOrd::le for Version (derived from Ord). -/
def vle (a b : Version) : Bool := Version.cmp a b != .gt

/-- Rust PartialOrd::lt for Version (derived from Ord). -/
def vlt (a b : Version) : Bool := Version.cmp a b == .lt

/-- impl PartialEq for Version (lib.rs 273-281): ignores build metadata. -/
def Version.beq (a b : Version) : Bool :=
  a.major == b.major && (a.minor == b.minor && (a.patch == b.patch &&
    (a.revision == b.revision &&
      listBeq Identifier.beq a.pre_release b.pre_release)))

/-- Predicate (range.rs 198-203): one edge condition of an interval. -/
inductive Predicate where
  | excluding (v : Version)
  | including (v : Version)
  | unbounded
deriving DecidableEq, Repr

/-- Bound (range.rs 216-220). -/
inductive Bound where
  | lower (p : Predicate)
  | upper (p : Predicate)
deriving DecidableEq, Repr

/-- Predicate::flip (range.rs 206-213). -/
def Predicate.flip : Predicate → Predicate
  | .excluding v => .including v
  | .including v => .excluding v
  | .unbounded => .unbounded

/-- Bound::predicate (range.rs 231-238). -/
def Bound.predicate : Bound → Predicate
  | .lower p => p
  | .upper p => p

/-- impl Ord for Bound (range.rs 241-296), transcribed arm for arm in
source order. Rust v <= w and v < w on Version are vle and vlt. -/
def Bound.cmp : Bound → Bound → Ordering
  | .lower .unbounded, .lower .unbounded => .eq
  | .upper .unbounded, .upper .unbounded => .eq
  | .upper .unbounded, _ => .gt
  | _, .lower .unbounded => .gt
  | .lower .unbounded, _ => .lt
  | _, .upper .unbounded => .lt
  | .upper (.including v1), .upper (.including v2) => Version.cmp v1 v2
  | .upper (.including v1), .lower (.including v2) => Version.cmp v1 v2
  | .upper (.excluding v1), .upper (.excluding v2) => Version.cmp v1 v2
  | .upper (.excluding v1), .lower (.excluding v2) => Version.cmp v1 v2
  | .lower (.including v1), .upper (.including v2) => Version.cmp v1 v2
  | .lower (.including v1), .lower (.including v2) => Version.cmp v1 v2
  | .lower (.excluding v1), .lower (.excluding v2) => Version.cmp v1 v2
  | .lower (.excluding v1), .upper (.excluding v2) =>
      if vle v2 v1 then .gt else .lt
  | .lower (.including v1), .upper (.excluding v2) =>
      if vle v2 v1 then .gt else .lt
  | .upper (.including v1), .upper (.excluding v2) =>
      if vlt v2 v1 then .gt else .lt
  | .upper (.including v1), .lower (.excluding v2) =>
      if vlt v2 v1 then .gt else .lt
  | .lower (.excluding v1), .upper (.including v2) =>
      if vlt v2 v1 then .gt else .lt
  | .lower (.excluding v1), .lower (.including v2) =>
      if vlt v1 v2 then .lt else .gt
  | .lower (.including v1), .lower (.excluding v2) =>
      if vle v1 v2 then .lt else .gt
  | .upper (.excluding v1), .lower (.including v2) =>
      if vle v1 v2 then .lt else .gt
  | .upper (.excluding v1), .upper (.including v2) =>
      if vle v1 v2 then .lt else .gt

/-- Rust PartialOrd::le for Bound (derived from Ord). -/
def ble (a b : Bound) : Bool := Bound.cmp a b != .gt

/-- Rust PartialOrd::lt for Bound (derived from Ord). -/
def blt (a b : Bound) : Bool := Bound.cmp a b == .lt

/-- Extended version line with -infinity and +infinity endpoints. -/
inductive XVer where
  | negInf
  | fin (v : Version)
  | posInf
deriving DecidableEq, Repr

def xCmp : XVer → XVer → Ordering
  | .negInf, .negInf => .eq
  | .negInf, _ => .lt
  | _, .negInf => .gt
  | .posInf, .posInf => .eq
  | .posInf, _ => .gt
  | _, .posInf => .lt
  | .fin a, .fin b => Version.cmp a b

/-- Lexicographic comparison of positions (version first, then epsilon). -/
def pCmp (a b : XVer × Nat) : Ordering :=
  (xCmp a.1 b.1).then (natCmp a.2 b.2)

/-- Modelled from the spec: the position of each bound.
Lower(Unbounded) = (-inf, 0); Upper(Unbounded) = (+inf, 0);
Including(v) = (v, 0); Lower(Excluding(v)) = (v, +eps);
Upper(Excluding(v)) = (v, -eps) -- epsilon shifted to 0/1/2 here. -/
def Bound.pos : Bound → XVer × Nat
  | .lower .unbounded => (.negInf, 1)
  | .upper .unbounded => (.posInf, 1)
  | .lower (.including v) => (.fin v, 1)
  | .upper (.including v) => (.fin v, 1)
  | .lower (.excluding v) => (.fin v, 2)
  | .upper (.excluding v) => (.fin v, 0)

/-- Modelled from the spec: the reference bound ordering of section 4.2,
comparing positions lexicographically. -/
def specBoundCmp (a b : Bound) : Ordering := pCmp a.pos b.pos

/-- The three argument patterns at which Bound::cmp departs from the
position model (all require comparison-equal versions). -/
def bcmpDeviates : Bound → Bound → Bool
  | .upper (.including v1), .upper (.excluding v2) =>
      decide (Version.cmp v1 v2 = .eq)
  | .lower (.excluding v1), .upper (.including v2) =>
      decide (Version.cmp v1 v2 = .eq)
  | .upper (.excluding v1), .lower (.excluding v2) =>
      decide (Version.cmp v1 v2 = .eq)
  | _, _ => false

/-- ComparatorSet (range.rs 17-21); field order as in the source. -/
structure ComparatorSet where
  upper : Bound
  lower : Bound
deriving DecidableEq, Repr

/-- Derived PartialEq on Predicate: leaf versions compare with the
semantic Version equality. -/
def Predicate.beq : Predicate → Predicate → Bool
  | .excluding a, .excluding b => Version.beq a b
  | .including a, .including b => Version.beq a b
  | .unbounded, .unbounded => true
  | _, _ => false

/-- Derived PartialEq on Bound. -/
def Bound.beq : Bound → Bound → Bool
  | .lower p, .lower q => Predicate.beq p q
  | .upper p, .upper q => Predicate.beq p q
  | _, _ => false

/-- Derived PartialEq on ComparatorSet. -/
def ComparatorSet.beq (a b : ComparatorSet) : Bool :=
  Bound.beq a.upper b.upper && Bound.beq a.lower b.lower

/-- Bound::upper() (range.rs 223-225). -/
def Bound.upperAny : Bound := .upper .unbounded

/-- Bound::lower() (range.rs 227-229). -/
def Bound.lowerAny : Bound := .lower .unbounded

/-- ComparatorSet::new (range.rs 24-42). The source matches
(lower, upper) with two guarded special arms (touching bounds with equal
versions), then the guard lower <= upper, else None; Rust == on Version
is the semantic Version.beq and <= on Bound is ble. -/
def ComparatorSet.new (lower upper : Bound) : Option ComparatorSet :=
  if (match lower, upper with
      | .lower (.excluding v1), .upper (.including v2) => Version.beq v1 v2
      | .lower (.including v1), .upper (.excluding v2) => Version.beq v1 v2
      | _, _ => false) then
    none
  else if (match lower, upper with
      | .lower (.including v1), .upper (.including v2) => Version.beq v1 v2
      | _, _ => false) then
    some { upper := upper, lower := lower }
  else if ble lower upper then
    some { upper := upper, lower := lower }
  else
    none

/-- ComparatorSet::at_least (range.rs 71-73). -/
def ComparatorSet.at_least (p : Predicate) : Option ComparatorSet :=
  ComparatorSet.new (.lower p) Bound.upperAny

/-- ComparatorSet::at_most (range.rs 75-77). -/
def ComparatorSet.at_most (p : Predicate) : Option ComparatorSet :=
  ComparatorSet.new Bound.lowerAny (.upper p)

/-- ComparatorSet::exact (range.rs 79-84). -/
def ComparatorSet.exact (version : Version) : Option ComparatorSet :=
  ComparatorSet.new (.lower (.including version)) (.upper (.including version))

/-- The lower_bound local of ComparatorSet::satisfies (range.rs 90-98).
The catch-all arm is unreachable! in Rust (an upper bound stored in the
lower field, which no constructor produces); modelled as false. -/
def lowerSat (b : Bound) (version : Version) : Bool :=
  match b with
  | .lower (.including lo) => vle lo version
  | .lower (.excluding lo) => vlt lo version
  | .lower .unbounded => true
  | _ => false

/-- The upper_bound local of ComparatorSet::satisfies (range.rs 100-108);
catch-all as above. -/
def upperSat (b : Bound) (version : Version) : Bool :=
  match b with
  | .upper (.including up) => vle version up
  | .upper (.excluding up) => vlt version up
  | .upper .unbounded => true
  | _ => false

/-- ComparatorSet::satisfies (range.rs 86-111). -/
def ComparatorSet.satisfies (s : ComparatorSet) (version : Version) : Bool :=
  lowerSat s.lower version && upperSat s.upper version

/-- ComparatorSet::has_pre (range.rs 44-69); unreachable! arms modelled
as false as in satisfies. -/
def ComparatorSet.has_pre (s : ComparatorSet) : Bool :=
  (match s.lower with
   | .lower (.including lo) => !lo.pre_release.isEmpty
   | .lower (.excluding lo) => !lo.pre_release.isEmpty
   | .lower .unbounded => false
   | _ => false) ||
  (match s.upper with
   | .upper (.including up) => !up.pre_release.isEmpty
   | .upper (.excluding up) => !up.pre_release.isEmpty
   | .upper .unbounded => false
   | _ => false)

/-- std::cmp::max on bounds (returns the second argument when equal,
per max_by). -/
def rmax (a b : Bound) : Bound := if Bound.cmp a b = .gt then a else b

/-- std::cmp::min on bounds (returns the first argument when equal,
per min_by). -/
def rmin (a b : Bound) : Bound := if Bound.cmp a b = .gt then b else a

/-- ComparatorSet::intersect (range.rs 129-134). -/
def ComparatorSet.intersect (s other : ComparatorSet) : Option ComparatorSet :=
  ComparatorSet.new (rmax s.lower other.lower) (rmin s.upper other.upper)

/-- ComparatorSet::difference (range.rs 136-166). The two .unwrap()
calls in the both-sides branch are modelled by returning none when
either constructor call fails; the difference theorems show those
constructor calls always succeed for sets with properly oriented
bounds, so the Rust panic is unreachable there. -/
def ComparatorSet.difference (s other : ComparatorSet) :
    Option (List ComparatorSet) :=
  match s.intersect other with
  | some overlap =>
    if ComparatorSet.beq overlap s then
      none
    else if blt s.lower overlap.lower && blt overlap.upper s.upper then
      match ComparatorSet.new s.lower (.upper overlap.lower.predicate.flip),
            ComparatorSet.new (.lower overlap.upper.predicate.flip) s.upper with
      | some f1, some f2 => some [f1, f2]
      | _, _ => none
    else if blt s.lower overlap.lower then
      (ComparatorSet.new s.lower (.upper overlap.lower.predicate.flip)).map
        (fun f => [f])
    else
      (ComparatorSet.new (.lower overlap.upper.predicate.flip) s.upper).map
        (fun f => [f])
  | none => some [s]

/-- Range (range.rs 304-307). -/
structure Range where
  comparators : List ComparatorSet
deriving DecidableEq, Repr

/-- Range::satisfies (range.rs 361-369): the for loop returns true as
soon as one comparator set matches. -/
def Range.satisfies (r : Range) (version : Version) : Bool :=
  r.comparators.any (fun cs => cs.satisfies version)

/-- Range::has_pre_release (range.rs 357-359). -/
def Range.has_pre_release (r : Range) : Bool :=
  r.comparators.any (fun cs => cs.has_pre)

/-- Range::intersect (range.rs 395-413): pairwise intersections over the
cross product, collected in iteration order; None when no pair overlaps. -/
def Range.intersect (r other : Range) : Option Range :=
  let predicates := r.comparators.flatMap (fun lefty =>
    other.comparators.filterMap (fun righty => lefty.intersect righty))
  if predicates.isEmpty then none else some { comparators := predicates }

/-- Range::difference (range.rs 415-433): pairwise differences over the
cross product, each contributing its vector of pieces. -/
def Range.difference (r other : Range) : Option Range :=
  let predicates := r.comparators.flatMap (fun lefty =>
    other.comparators.flatMap (fun righty =>
      (lefty.difference righty).getD []))
  if predicates.isEmpty then none else some { comparators := predicates }

/-- The satisfaction of an optional range (None satisfies nothing):
used to state the difference and intersection claims. -/
def optSat (o : Option Range) (version : Version) : Bool :=
  match o with
  | some r => r.satisfies version
  | none => false

/-- The bound-orientation invariant every constructed ComparatorSet
enjoys: the lower field holds a Lower bound and the upper field an
Upper bound. -/
def ComparatorSet.wf (s : ComparatorSet) : Bool :=
  (match s.lower with
   | .lower _ => true
   | _ => false) &&
  (match s.upper with
   | .upper _ => true
   | _ => false)

/-- A range all of whose comparator sets are well oriented. -/
def Range.wf (r : Range) : Bool := r.comparators.all (fun cs => cs.wf)

/-- The position of a plain version on the line (epsilon 1 = exactly at). -/
def vpos (v : Version) : XVer × Nat := (.fin v, 1)

/-- 1.0.0, 2.0.0 and friends, for concrete interval tests. -/
def cVer (ma mi pa : Nat) : Version := mkVersion ma mi pa 0 [] []

/-- The closed interval [1.0.0, 2.0.0]. -/
def csClosed : ComparatorSet :=
  ⟨.upper (.including (cVer 2 0 0)), .lower (.including (cVer 1 0 0))⟩

/-- The half open interval [1.0.0, 2.0.0). -/
def csHalfOpen : ComparatorSet :=
  ⟨.upper (.excluding (cVer 2 0 0)), .lower (.including (cVer 1 0 0))⟩

def rClosed : Range := ⟨[csClosed]⟩

def rHalfOpen : Range := ⟨[csHalfOpen]⟩

/-- The lower half of the disconnected range parsed from "<1.0.0":
everything strictly below 1.0.0. -/
def csLow : ComparatorSet :=
  ⟨.upper (.excluding (cVer 1 0 0)), .lower .unbounded⟩

/-- Everything strictly above 2.0.0 (the ">2.0.0" comparator). -/
def csHigh : ComparatorSet :=
  ⟨.upper .unbounded, .lower (.excluding (cVer 2 0 0))⟩

/-- The disconnected range "<1.0.0 || >2.0.0". -/
def rSplit : Range := ⟨[csLow, csHigh]⟩

/-- The static context labels handed to nom context(...) in the two
source files. -/
inductive Ctx where
  | version
  | versionCore
  | buildVersion
  | preReleaseVersion
  | identifier
  | numberComponent
  | range
  | baseVersionRange
  | brackets
  | operationFollowedByVersion
  | operation
  | openingBracket
  | closingBracket
deriving DecidableEq, Repr

/-- SemverErrorKind (lib.rs 70-95). The ParseIntError payload (a std
ParseIntError, always an overflow here) is not carried. -/
inductive SemverErrorKind where
  | MaxLengthError
  | IncompleteInput
  | ParseIntError
  | MaxIntError (n : Nat)
  | Context (c : Ctx)
  | Other
deriving DecidableEq, Repr

/-- SemverParseError (lib.rs 97-102): the nom-side error, whose input
field is the remaining slice at the error position. -/
structure SemverParseError where
  input : List Char
  context : Option Ctx
  kind : Option SemverErrorKind
deriving DecidableEq, Repr

/-- The outcome of a nom parser call: Ok, Err::Error (recoverable) or
Err::Failure (produced by cut, aborts alt and the list combinators).
Err::Incomplete cannot arise from the complete-input combinators this
crate uses, so it has no constructor. -/
inductive NomResult (α : Type) where
  | ok (rest : List Char) (val : α)
  | err (e : SemverParseError)
  | fail (e : SemverParseError)
deriving DecidableEq, Repr

def Parser (α : Type) : Type := List Char → NomResult α

/-- ContextError::add_context (lib.rs 143-148): overwrite the context
label, keep the kind; applied by nom context() to Error and Failure. -/
def addContext {α : Type} (c : Ctx) (r : NomResult α) : NomResult α :=
  match r with
  | .ok rest v => .ok rest v
  | .err e => .err { e with context := some c }
  | .fail e => .fail { e with context := some c }

/-- nom map. -/
def pmap {α β : Type} (p : Parser α) (f : α → β) : Parser β := fun input =>
  match p input with
  | .ok rest v => .ok rest (f v)
  | .err e => .err e
  | .fail e => .fail e

/-- nom tag: ParseError::from_error_kind gives context None, kind None
(lib.rs 129-141). -/
def ptag (t : List Char) : Parser (List Char) := fun input =>
  if t.isPrefixOf input then .ok (input.drop t.length) t
  else .err ⟨input, none, none⟩

/-- nom digit1 under recognize: the maximal leading run of ASCII digits,
error when empty. -/
def digit1 : Parser (List Char) := fun input =>
  let digits := input.takeWhile Char.isDigit
  if digits.isEmpty then .err ⟨input, none, none⟩
  else .ok (input.drop digits.length) digits

/-- nom opt: Error is swallowed, Failure propagates. -/
def popt {α : Type} (p : Parser α) : Parser (Option α) := fun input =>
  match p input with
  | .ok rest v => .ok rest (some v)
  | .err _ => .ok input none
  | .fail e => .fail e

/-- nom cut: upgrade Error to Failure. -/
def pcut {α : Type} (p : Parser α) : Parser α := fun input =>
  match p input with
  | .ok rest v => .ok rest v
  | .err e => .fail e
  | .fail e => .fail e

/-- Sequencing, as nom tuple builds nested pairs. -/
def pand {α β : Type} (p : Parser α) (q : Parser β) : Parser (α × β) :=
  fun input =>
  match p input with
  | .ok rest v =>
    match q rest with
    | .ok rest2 w => .ok rest2 (v, w)
    | .err e => .err e
    | .fail e => .fail e
  | .err e => .err e
  | .fail e => .fail e

/-- nom preceded. -/
def ppreceded {α β : Type} (a : Parser α) (b : Parser β) : Parser β :=
  pmap (pand a b) Prod.snd

/-- nom alt: try alternatives in order; Error moves on (the default
ParseError::or keeps the later error), Failure aborts. -/
def palt {α : Type} : List (Parser α) → Parser α
  | [] => fun input => .err ⟨input, none, none⟩
  | [p] => p
  | p :: q :: ps => fun input =>
    match p input with
    | .ok rest v => .ok rest v
    | .err _ => palt (q :: ps) input
    | .fail e => .fail e

/-- nom map_opt: a None from the function is an Error at the position
where the inner parser started. -/
def pmapOpt {α β : Type} (p : Parser α) (f : α → Option β) : Parser β :=
  fun input =>
  match p input with
  | .ok rest v =>
    match f v with
    | some w => .ok rest w
    | none => .err ⟨input, none, none⟩
  | .err e => .err e
  | .fail e => .fail e

/-- nom all_consuming: leftover input is an Eof Error at the leftover. -/
def allConsuming {α : Type} (p : Parser α) : Parser α := fun input =>
  match p input with
  | .ok [] v => .ok [] v
  | .ok (c :: cs) _ => .err ⟨c :: cs, none, none⟩
  | .err e => .err e
  | .fail e => .fail e

/-- The loop of nom separated_list1 (after the first element), with
explicit fuel; each iteration consumes at least one character (the
in-source infinite-loop check errors otherwise), so fuel of one more
than the remaining length never runs out. -/
def sepList1Loop {σ α : Type} (sep : Parser σ) (p : Parser α) :
    Nat → List Char → List α → NomResult (List α)
  | 0, i, _ => .err ⟨i, none, none⟩
  | fuel + 1, i, acc =>
    match sep i with
    | .err _ => .ok i acc
    | .fail e => .fail e
    | .ok i1 _ =>
      if i1.length == i.length then .err ⟨i1, none, none⟩
      else
        match p i1 with
        | .err _ => .ok i acc
        | .fail e => .fail e
        | .ok i2 v => sepList1Loop sep p fuel i2 (acc ++ [v])

/-- nom separated_list1. -/
def sepList1 {σ α : Type} (sep : Parser σ) (p : Parser α) :
    Parser (List α) := fun input =>
  match p input with
  | .err e => .err e
  | .fail e => .fail e
  | .ok i1 v => sepList1Loop sep p (i1.length + 1) i1 [v]

/-- nom is_alphanumeric on the low byte of the char, as the source
casts the char to u8 before testing (lib.rs 556). -/
def isAlnumByte (c : Char) : Bool :=
  let b := c.toNat % 256
  (0x41 ≤ b && b ≤ 0x5A) || (0x61 ≤ b && b ≤ 0x7A) || (0x30 ≤ b && b ≤ 0x39)

/-- The character class of identifier (lib.rs 556). -/
def identChar (c : Char) : Bool := isAlnumByte c || c == '-'

/-- The numeric value of a digit run. -/
def digitsVal (s : List Char) : Nat :=
  s.foldl (fun acc c => acc * 10 + (c.toNat - 48)) 0

/-- One optional leading plus sign is stripped by u64 parsing. -/
def stripPlus (s : List Char) : List Char :=
  match s with
  | c :: rest => if c = '+' then rest else s
  | [] => s

/-- Rust str::parse::<u64>: an optional leading plus sign, then one or
more digits, failing on anything else and on overflow past u64::MAX. -/
def rustParseU64 (s : List Char) : Option Nat :=
  let core := stripPlus s
  if core.isEmpty then none
  else if core.all Char.isDigit then
    if digitsVal core ≤ 18446744073709551615 then some (digitsVal core)
    else none
  else none

/-- number (lib.rs 564-585): map_res over recognize(digit1); a parse
failure (u64 overflow) yields ParseIntError and a value above
MAX_SAFE_INTEGER yields MaxIntError, both positioned at the start of
the number (FromExternalError returns the closure error unchanged). -/
def number : Parser Nat := fun input =>
  addContext .numberComponent
    (match digit1 input with
     | .ok rest raw =>
       match rustParseU64 raw with
       | none => .err ⟨input, none, some .ParseIntError⟩
       | some value =>
         if value > 900719925474099 then
           .err ⟨input, none, some (.MaxIntError value)⟩
         else .ok rest value
     | .err e => .err e
     | .fail e => .fail e)

/-- identifier (lib.rs 549-562): take_while of the identifier class,
then Numeric if str::parse::<u64> succeeds, else AlphaNumeric. -/
def identifier : Parser Identifier := fun input =>
  addContext .identifier
    (let s := input.takeWhile identChar
     let rest := input.drop s.length
     match rustParseU64 s with
     | some n => .ok rest (.numeric n)
     | none => .ok rest (.alphaNumeric s))

/-- pre_release (lib.rs 542-547). -/
def pre_release : Parser (List Identifier) := fun input =>
  addContext .preReleaseVersion
    (ppreceded (ptag ['-']) (sepList1 (ptag ['.']) identifier) input)

/-- build (lib.rs 535-540). -/
def build : Parser (List Identifier) := fun input =>
  addContext .buildVersion
    (ppreceded (ptag ['+']) (sepList1 (ptag ['.']) identifier) input)

/-- Extras (lib.rs 450-465). -/
inductive Extras where
  | Build (idents : List Identifier)
  | Release (idents : List Identifier)
  | ReleaseAndBuild (idents : List Identifier × List Identifier)

def Extras.values : Extras → List Identifier × List Identifier
  | .Release i => (i, [])
  | .Build i => ([], i)
  | .ReleaseAndBuild i => i

/-- extras (lib.rs 487-501). -/
def extras : Parser (List Identifier × List Identifier) :=
  pmap (popt (palt [
    pmap (pand pre_release build) Extras.ReleaseAndBuild,
    pmap pre_release Extras.Release,
    pmap build Extras.Build]))
    (fun e => match e with
      | some ex => ex.values
      | none => ([], []))

/-- version_core (lib.rs 504-532): four alternatives from most to least
specific, the trailing numbers of each behind cut. -/
def version_core : Parser (Nat × Nat × Nat × Nat) := fun input =>
  addContext .versionCore
    (palt [
      pmap (pand number (pand (ptag ['.']) (pand (pcut number)
          (pand (ptag ['.']) (pand (pcut number)
            (pand (ptag ['.']) (pcut number)))))))
        (fun (ma, _, mi, _, pa, _, re) => (ma, mi, pa, re)),
      pmap (pand number (pand (ptag ['.']) (pand (pcut number)
          (pand (ptag ['.']) (pcut number)))))
        (fun (ma, _, mi, _, pa) => (ma, mi, pa, 0)),
      pmap (pand number (pand (ptag ['.']) (pcut number)))
        (fun (ma, _, mi) => (ma, mi, 0, 0)),
      pmap number (fun ma => (ma, 0, 0, 0))] input)

/-- version (lib.rs 471-485). -/
def version : Parser Version := fun input =>
  addContext .version
    (pmap (pand version_core extras)
      (fun (core, ex) =>
        mkVersion core.1 core.2.1 core.2.2.1 core.2.2.2 ex.1 ex.2) input)

/-- UTF-8 byte width of one character. -/
def utf8Len (c : Char) : Nat :=
  if c.toNat < 0x80 then 1
  else if c.toNat < 0x800 then 2
  else if c.toNat < 0x10000 then 3
  else 4

/-- Rust str::len: the UTF-8 byte length. -/
def strBytes (s : List Char) : Nat := (s.map utf8Len).sum

/-- SemverError (lib.rs 31-37). -/
structure SemverError where
  input : List Char
  offset : Nat
  kind : SemverErrorKind
deriving DecidableEq, Repr

/-- The error assembly shared by Version::parse and Range::parse: the
offset is the byte distance from the start of the input to the
remaining slice, and an absent kind falls back to the context label or
Other. -/
def mkSemverError (input : List Char) (e : SemverParseError) :
    SemverError :=
  ⟨input, strBytes input - strBytes e.input,
    match e.kind with
    | some k => k
    | none =>
      match e.context with
      | some c => .Context c
      | none => .Other⟩

/-- Version::parse (lib.rs 238-270). The Err::Incomplete arm is dead
code with complete-input combinators and has no counterpart here. -/
def Version.parse (input : List Char) : Except SemverError Version :=
  if strBytes input > 256 then
    .error ⟨input, 0, .MaxLengthError⟩
  else
    match allConsuming version input with
    | .ok _ v => .ok v
    | .err e => .error (mkSemverError input e)
    | .fail e => .error (mkSemverError input e)

/-- Decimal digits of a number, most significant first (Rust Display of
u64), written with fuel so that it reduces definitionally; the quotient
shrinks every round, so fuel n + 1 always suffices for n. -/
def natToCharsAux : Nat → Nat → List Char → List Char
  | 0, _, acc => acc
  | fuel + 1, n, acc =>
    if n < 10 then Char.ofNat (48 + n) :: acc
    else natToCharsAux fuel (n / 10) (Char.ofNat (48 + n % 10) :: acc)

def natToChars (n : Nat) : List Char := natToCharsAux (n + 1) n []

/-- Display of one Identifier (lib.rs 219-226). -/
def identChars : Identifier → List Char
  | .numeric n => natToChars n
  | .alphaNumeric s => s

/-- The later elements of a displayed identifier list, each behind a
dot. -/
def tailChars : List Identifier → List Char
  | [] => []
  | x :: xs => '.' :: identChars x ++ tailChars xs

/-- The pre-release or build tail of impl Display for Version: the
first element takes the leading mark, later ones a dot. -/
def displayIdents (lead : Char) : List Identifier → List Char
  | [] => []
  | x :: xs => lead :: identChars x ++ tailChars xs

/-- impl Display for Version (lib.rs 330-358): the revision is printed
only when positive. -/
def vDisplay (v : Version) : List Char :=
  natToChars v.major ++ '.' :: natToChars v.minor
    ++ '.' :: natToChars v.patch
    ++ (if v.revision > 0 then '.' :: natToChars v.revision else [])
    ++ displayIdents '-' v.pre_release
    ++ displayIdents '+' v.build

/-- nom space0: spaces and tabs. -/
def space0 : Parser (List Char) := fun input =>
  let s := input.takeWhile (fun c => c == ' ' || c == '\t')
  .ok (input.drop s.length) s

/-- The six-part partial version tuple (range.rs 607-614). -/
def PartialVersion : Type :=
  Option Nat × Option Nat × Option Nat × Option Nat
    × List Identifier × List Identifier

/-- maybe_dot_number (range.rs 631-633): an optional dot-prefixed
number, a bare star standing for zero. -/
def maybe_dot_number : Parser (Option Nat) :=
  popt (ppreceded (ptag ['.'])
    (palt [number, pmap (ptag ['*']) (fun _ => 0)]))

/-- partial_version (range.rs 616-629). -/
def partial_version : Parser PartialVersion :=
  pmap (pand (popt (palt [number, pmap (ptag ['*']) (fun _ => 0)]))
      (pand maybe_dot_number (pand maybe_dot_number
        (pand maybe_dot_number extras))))
    (fun (ma, mi, pa, re, ex) => (ma, mi, pa, re, ex.1, ex.2))

/-- The Version a partial version denotes with absent components as
zero, as built repeatedly inside the range parsers. -/
def pvVersion (pv : PartialVersion) : Version :=
  mkVersion (pv.1.getD 0) (pv.2.1.getD 0) (pv.2.2.1.getD 0)
    (pv.2.2.2.1.getD 0) pv.2.2.2.2.1 pv.2.2.2.2.2

/-- The closure of plain_version_range (range.rs 498-525): lower bound
includes the given version, upper bound excludes
(major+1).0.0.0 with pre-release tag 0 (major defaults to 1 when
absent). -/
def plainBuild (pv : PartialVersion) : Option ComparatorSet :=
  match pv with
  | (ma, mi, pa, re, pr, bu) =>
    ComparatorSet.new
      (.lower (.including (mkVersion (ma.getD 0) (mi.getD 0) (pa.getD 0)
        (re.getD 0) pr bu)))
      (.upper (.excluding (mkVersion
        (match ma with
         | some x => x + 1
         | none => 1) 0 0 0 [Identifier.numeric 0] [])))

/-- plain_version_range (range.rs 497-525). -/
def plain_version_range : Parser ComparatorSet := fun input =>
  addContext .baseVersionRange (pmapOpt partial_version plainBuild input)

/-- open_brace (range.rs 599-601). -/
def open_brace : Parser (List Char) := fun input =>
  addContext .openingBracket (palt [ptag ['['], ptag ['(']] input)

/-- close_brace (range.rs 603-605). -/
def close_brace : Parser (List Char) := fun input =>
  addContext .closingBracket (palt [ptag [']'], ptag [')']] input)

/-- The closure of brackets_range (range.rs 542-595): the open bracket
chooses the lower predicate, the close bracket the upper one; a missing
upper side reuses the lower version when there was no comma, demands
one otherwise, and a fully empty body is rejected. The unreachable!
arms cannot trigger because open_brace and close_brace only ever
produce the four bracket tokens. -/
def bracketsBuild (o : List Char) (lower : Option PartialVersion)
    (comma : Option (List Char)) (upper : Option PartialVersion)
    (close : List Char) : Option ComparatorSet :=
  let lower_bound := match lower with
    | some l =>
      Bound.lower (if o == ['('] then .excluding (pvVersion l)
        else .including (pvVersion l))
    | none => Bound.lowerAny
  match upper with
  | some u =>
    ComparatorSet.new lower_bound
      (.upper (if close == [')'] then .excluding (pvVersion u)
        else .including (pvVersion u)))
  | none =>
    if comma.isSome then
      ComparatorSet.new lower_bound Bound.upperAny
    else
      match lower with
      | some l =>
        ComparatorSet.new lower_bound
          (.upper (if close == [')'] then .excluding (pvVersion l)
            else .including (pvVersion l)))
      | none => none

/-- brackets_range (range.rs 526-597). -/
def brackets_range : Parser ComparatorSet := fun input =>
  addContext .brackets
    (pmapOpt
      (pand open_brace (pand space0 (pand (popt partial_version)
        (pand space0 (pand (popt (ptag [',']))
          (pand space0 (pand (popt partial_version)
            (pand space0 close_brace))))))))
      (fun (o, _, lower, _, comma, _, upper, _, close) =>
        bracketsBuild o lower comma upper close) input)

/-- Operation (range.rs, comparison operators). -/
inductive Operation where
  | Exact
  | GreaterThan
  | GreaterThanEquals
  | LessThan
  | LessThanEquals
deriving DecidableEq, Repr

/-- operation (range.rs 812-824). -/
def operation : Parser Operation := fun input =>
  addContext .operation
    (palt [
      pmap (ptag ['>', '=']) (fun _ => Operation.GreaterThanEquals),
      pmap (ptag ['>']) (fun _ => Operation.GreaterThan),
      pmap (ptag ['=']) (fun _ => Operation.Exact),
      pmap (ptag ['<', '=']) (fun _ => Operation.LessThanEquals),
      pmap (ptag ['<']) (fun _ => Operation.LessThan)] input)

/-- The closure of any_operation_followed_by_version
(range.rs 635-810), arm for arm in source order; the final
unreachable! arm (impossible partial version shapes) is None here. -/
def aofvBuild : Operation × PartialVersion → Option ComparatorSet
  | (.GreaterThanEquals, (ma, mi, pa, re, pr, bu)) =>
    ComparatorSet.at_least (.including (mkVersion (ma.getD 0) (mi.getD 0)
      (pa.getD 0) (re.getD 0) pr bu))
  | (.GreaterThan, (ma, some mi, some pa, some re, pr, bu)) =>
    ComparatorSet.at_least (.excluding (mkVersion (ma.getD 0) mi pa re
      pr bu))
  | (.GreaterThan, (ma, some mi, some pa, none, pr, bu)) =>
    ComparatorSet.at_least (.excluding (mkVersion (ma.getD 0) mi pa 0
      pr bu))
  | (.GreaterThan, (ma, some mi, none, none, pr, bu)) =>
    ComparatorSet.at_least (.including (mkVersion (ma.getD 0) (mi + 1) 0 0
      pr bu))
  | (.GreaterThan, (ma, none, none, none, pr, bu)) =>
    ComparatorSet.at_least (.including (mkVersion
      (match ma with
       | some x => x + 1
       | none => 0) 0 0 0 pr bu))
  | (.LessThan, (ma, some mi, some pa, none, pr, bu)) =>
    ComparatorSet.at_most (.excluding (mkVersion (ma.getD 0) mi pa 0
      pr bu))
  | (.LessThan, (ma, some mi, none, none, _, bu)) =>
    ComparatorSet.at_most (.excluding (mkVersion (ma.getD 0) mi 0 0
      [Identifier.numeric 0] bu))
  | (.LessThan, (ma, mi, pa, re, pr, bu)) =>
    ComparatorSet.at_most (.excluding (mkVersion (ma.getD 0) (mi.getD 0)
      (pa.getD 0) (re.getD 0) pr bu))
  | (.LessThanEquals, (ma, none, none, none, _, bu)) =>
    ComparatorSet.at_most (.including (mkVersion (ma.getD 0) 0 0 0
      [Identifier.numeric 0] bu))
  | (.LessThanEquals, (ma, some mi, none, none, _, bu)) =>
    ComparatorSet.at_most (.including (mkVersion (ma.getD 0) mi 0 0
      [Identifier.numeric 0] bu))
  | (.LessThanEquals, (ma, some mi, some pa, none, pr, bu)) =>
    ComparatorSet.at_most (.including (mkVersion (ma.getD 0) mi pa 0
      pr bu))
  | (.LessThanEquals, (ma, some mi, some pa, some re, pr, bu)) =>
    ComparatorSet.at_most (.including (mkVersion (ma.getD 0) mi pa re
      pr bu))
  | (.Exact, (ma, none, none, none, pr, bu)) =>
    ComparatorSet.exact (mkVersion (ma.getD 0) 0 0 0 pr bu)
  | (.Exact, (ma, some mi, none, none, pr, bu)) =>
    ComparatorSet.exact (mkVersion (ma.getD 0) mi 0 0 pr bu)
  | (.Exact, (ma, some mi, some pa, none, pr, bu)) =>
    ComparatorSet.exact (mkVersion (ma.getD 0) mi pa 0 pr bu)
  | (.Exact, (ma, some mi, some pa, some re, pr, bu)) =>
    ComparatorSet.exact (mkVersion (ma.getD 0) mi pa re pr bu)
  | (_, _) => none

/-- any_operation_followed_by_version (range.rs 635-810). -/
def any_operation_followed_by_version : Parser ComparatorSet :=
  fun input =>
  addContext .operationFollowedByVersion
    (pmapOpt (pand operation (ppreceded space0 partial_version))
      aofvBuild input)

/-- comparators (range.rs 486-496): brackets, then an explicit
operator, then a plain version range; no caret or tilde alternative
exists. -/
def comparators : Parser ComparatorSet :=
  palt [brackets_range, any_operation_followed_by_version,
    plain_version_range]

/-- range (range.rs 479-484). -/
def range : Parser (List ComparatorSet) := fun input =>
  addContext .range
    (sepList1 (pand space0 (pand (ptag ['|', '|']) space0))
      comparators input)

/-- Range::parse (range.rs 323-349); unlike Version::parse it has no
length ceiling, and the Err::Incomplete arm is dead code here too. -/
def Range.parse (input : List Char) : Except SemverError Range :=
  match allConsuming range input with
  | .ok _ preds => .ok ⟨preds⟩
  | .err e => .error (mkSemverError input e)
  | .fail e => .error (mkSemverError input e)

/-- Whether the range parsed from an input accepts a version (false on a
parse error); the shape in which the spec states its examples. -/
def parseSat (s : List Char) (v : Version) : Bool :=
  match Range.parse s with
  | .ok r => r.satisfies v
  | .error _ => false

/-- Insertion of a version into a sorted list by the Version ordering. -/
def sortInsert (v : Version) : List Version → List Version
  | [] => [v]
  | x :: xs => if vle v x then v :: x :: xs else x :: sortInsert v xs

/-- A sort by the Version ordering, standing in for sort_unstable; only
membership in the sorted list matters for the claim. -/
def sortVersions : List Version → List Version
  | [] => []
  | x :: xs => sortInsert x (sortVersions xs)

/-- VersionPicker::pick_version (ruget-pick-version lib.rs 22-36).
Modelled from the spec in one respect: the test
req.is_floating() || self.force_floating is a single boolean input
floating, because Range::is_floating is called but not defined anywhere
in these sources. -/
def pick_version (floating : Bool) (req : Range)
    (versions : List Version) : Option Version :=
  let include_pre := req.has_pre_release
  let filtered := versions.filter
    (fun v => include_pre || v.pre_release.isEmpty)
  let sorted := sortVersions filtered
  let ordered := if floating then sorted.reverse else sorted
  ordered.find? (fun v => req.satisfies v)

/-- The continuation after a token must not extend it: its head fails
the class test. -/
def headFalse (p : Char → Bool) : List Char → Bool
  | [] => true
  | c :: _ => !p c

/-- The invariant every Identifier coming out of the identifier parser
enjoys: a Numeric fits u64 and an AlphaNumeric is made of identifier
characters and is not u64-parseable. -/
def identWf : Identifier → Bool
  | .numeric n => decide (n ≤ 18446744073709551615)
  | .alphaNumeric s => s.all identChar && (rustParseU64 s).isNone

/-- What may follow a displayed identifier list: nothing that could
extend the last identifier or start another separator. -/
def sepStop : List Char → Bool
  | [] => true
  | c :: _ => !identChar c && !(c == '.')

/-- The invariant of every Version a successful parse returns: the four
numeric components passed the MAX_SAFE_INTEGER ceiling and the
identifier lists came from the identifier parser. -/
def vWf (v : Version) : Bool :=
  decide (v.major ≤ 900719925474099) && decide (v.minor ≤ 900719925474099)
    && decide (v.patch ≤ 900719925474099)
    && decide (v.revision ≤ 900719925474099)
    && v.pre_release.all identWf && v.build.all identWf

/-! ## Theorems -/

theorem natCmp_lt_iff {a b : Nat} : natCmp a b = .lt ↔ a < b := by
  unfold natCmp
  by_cases h1 : a < b
  · simp [h1]
  · by_cases h2 : a = b <;> simp [h1, h2]

theorem natCmp_eq_iff {a b : Nat} : natCmp a b = .eq ↔ a = b := by
  unfold natCmp
  by_cases h1 : a < b
  · simp [h1]; omega
  · by_cases h2 : a = b <;> simp [h1, h2]

theorem natCmp_gt_iff {a b : Nat} : natCmp a b = .gt ↔ b < a := by
  unfold natCmp
  by_cases h1 : a < b
  · simp [h1]
    omega
  · by_cases h2 : a = b <;> simp [h1, h2]
    omega

/-- (o.then p).swap distributes over Ordering.then. -/
theorem thenSwap (o p : Ordering) : (o.then p).swap = o.swap.then p.swap := by
  cases o <;> rfl

theorem LawCmp.refl {c : α → α → Ordering} (h : LawCmp c) (a : α) :
    c a a = .eq := by
  have hs := h.swap a a
  rcases hc : c a a with _ | _ | _
  · rw [hc] at hs; exact absurd hs (by decide)
  · rfl
  · rw [hc] at hs; exact absurd hs (by decide)

theorem LawCmp.eq_symm {c : α → α → Ordering} (h : LawCmp c) {a b : α}
    (hab : c a b = .eq) : c b a = .eq := by
  have hs := h.swap a b
  rw [hab] at hs
  exact hs.symm

theorem LawCmp.eq_r {c : α → α → Ordering} (h : LawCmp c) {a b d : α}
    (hbd : c b d = .eq) : c a b = c a d := by
  have h2 := h.eq_l hbd (d := a)
  rw [← h.swap b a, ← h.swap d a]
  exact congrArg Ordering.swap h2

theorem LawCmp.gt_iff_lt {c : α → α → Ordering} (h : LawCmp c) {a b : α} :
    c a b = .gt ↔ c b a = .lt := by
  have hs := h.swap a b
  constructor
  · intro hab
    rw [hab] at hs
    exact hs.symm
  · intro hba
    rw [hba] at hs
    have h2 := congrArg Ordering.swap hs
    rw [Ordering.swap_swap] at h2
    exact h2

theorem LawCmp.lt_of_lt_of_eq {c : α → α → Ordering} (h : LawCmp c) {a b d : α}
    (h1 : c a b = .lt) (h2 : c b d = .eq) : c a d = .lt := by
  rw [← h.eq_r h2]; exact h1

theorem LawCmp.lt_of_eq_of_lt {c : α → α → Ordering} (h : LawCmp c) {a b d : α}
    (h1 : c a b = .eq) (h2 : c b d = .lt) : c a d = .lt := by
  rw [h.eq_l h1]; exact h2

theorem LawCmp.lt_of_lt_of_le {c : α → α → Ordering} (h : LawCmp c) {a b d : α}
    (h1 : c a b = .lt) (h2 : c b d ≠ .gt) : c a d = .lt := by
  rcases hbd : c b d with _ | _ | _
  · exact h.lt_trans h1 hbd
  · exact h.lt_of_lt_of_eq h1 hbd
  · exact absurd hbd h2

theorem LawCmp.lt_of_le_of_lt {c : α → α → Ordering} (h : LawCmp c) {a b d : α}
    (h1 : c a b ≠ .gt) (h2 : c b d = .lt) : c a d = .lt := by
  rcases hab : c a b with _ | _ | _
  · exact h.lt_trans hab h2
  · exact h.lt_of_eq_of_lt hab h2
  · exact absurd hab h1

theorem LawCmp.le_trans {c : α → α → Ordering} (h : LawCmp c) {a b d : α}
    (h1 : c a b ≠ .gt) (h2 : c b d ≠ .gt) : c a d ≠ .gt := by
  rcases hbd : c b d with _ | _ | _
  · rw [(h.lt_of_le_of_lt h1 hbd)]; intro hx; cases hx
  · rw [← h.eq_r hbd]; exact h1
  · exact absurd hbd h2

theorem LawCmp.comap {c : α → α → Ordering} (f : β → α) (h : LawCmp c) :
    LawCmp (fun x y => c (f x) (f y)) where
  swap a b := h.swap (f a) (f b)
  lt_trans h1 h2 := h.lt_trans h1 h2
  eq_l h1 := h.eq_l h1

theorem natCmp_law : LawCmp natCmp where
  swap a b := by
    rcases Nat.lt_trichotomy a b with h | h | h
    · rw [natCmp_lt_iff.mpr h, natCmp_gt_iff.mpr h]; rfl
    · rw [natCmp_eq_iff.mpr h, natCmp_eq_iff.mpr h.symm]; rfl
    · rw [natCmp_gt_iff.mpr h, natCmp_lt_iff.mpr h]; rfl
  lt_trans h1 h2 :=
    natCmp_lt_iff.mpr (Nat.lt_trans (natCmp_lt_iff.mp h1) (natCmp_lt_iff.mp h2))
  eq_l h1 := by rw [natCmp_eq_iff.mp h1]

/-- The composite of two comparisons, second used to break ties; this is
the early-return chaining used by all the Ord impls in the source. -/
theorem lawCmp_then {c1 c2 : α → α → Ordering} (h1 : LawCmp c1)
    (h2 : LawCmp c2) : LawCmp (fun a b => (c1 a b).then (c2 a b)) where
  swap a b := by
    rw [thenSwap, h1.swap, h2.swap]
  lt_trans := by
    intro a b d hab hbd
    rcases hc1 : c1 a b with _ | _ | _ <;> rw [hc1] at hab <;>
      rcases hc2 : c1 b d with _ | _ | _ <;> rw [hc2] at hbd <;>
      simp only [Ordering.then] at hab hbd ⊢
    · rw [h1.lt_trans hc1 hc2]
    · rw [h1.lt_of_lt_of_eq hc1 hc2]
    · cases hbd
    · rw [h1.lt_of_eq_of_lt hc1 hc2]
    · rw [h1.eq_l hc1, hc2]
      simp only [Ordering.then]
      exact h2.lt_trans hab hbd
    · cases hbd
    · cases hab
    · cases hab
    · cases hab
  eq_l := by
    intro a b d hab
    rcases hc1 : c1 a b with _ | _ | _ <;> rw [hc1] at hab <;>
      simp only [Ordering.then] at hab
    · cases hab
    · rw [h1.eq_l hc1, h2.eq_l hab]
    · cases hab

theorem listCmp_law {c : α → α → Ordering} (h : LawCmp c) :
    LawCmp (listCmp c) where
  swap a b := by
    induction a generalizing b with
    | nil => cases b <;> rfl
    | cons x xs ih =>
      cases b with
      | nil => rfl
      | cons y ys =>
        simp only [listCmp]
        rw [thenSwap, h.swap x y, ih ys]
  lt_trans := by
    intro a b d h1 h2
    induction a generalizing b d with
    | nil =>
      cases b with
      | nil => exact absurd h1 (by simp [listCmp])
      | cons y ys =>
        cases d with
        | nil => exact absurd h2 (by simp [listCmp])
        | cons z zs => rfl
    | cons x xs ih =>
      cases b with
      | nil => exact absurd h1 (by simp [listCmp])
      | cons y ys =>
        cases d with
        | nil => exact absurd h2 (by simp [listCmp])
        | cons z zs =>
          simp only [listCmp] at h1 h2 ⊢
          rcases hxy : c x y with _ | _ | _ <;> rw [hxy] at h1 <;>
            rcases hyz : c y z with _ | _ | _ <;> rw [hyz] at h2 <;>
            simp only [Ordering.then] at h1 h2 ⊢
          · rw [h.lt_trans hxy hyz]
          · rw [h.lt_of_lt_of_eq hxy hyz]
          · cases h2
          · rw [h.lt_of_eq_of_lt hxy hyz]
          · rw [h.eq_l hxy, hyz]
            simp only [Ordering.then]
            exact ih h1 h2
          · cases h2
          · cases h1
          · cases h1
          · cases h1
  eq_l := by
    intro a b d h1
    induction a generalizing b d with
    | nil =>
      cases b with
      | nil => rfl
      | cons y ys => exact absurd h1 (by simp [listCmp])
    | cons x xs ih =>
      cases b with
      | nil => exact absurd h1 (by simp [listCmp])
      | cons y ys =>
        simp only [listCmp] at h1
        rcases hxy : c x y with _ | _ | _ <;> rw [hxy] at h1 <;>
          simp only [Ordering.then] at h1
        · cases h1
        · cases d with
          | nil => rfl
          | cons z zs =>
            simp only [listCmp]
            rw [h.eq_l hxy, ih h1]
        · cases h1

theorem listCmp_eq_iff {c : α → α → Ordering}
    (helem : ∀ a b, c a b = .eq ↔ a = b) {l1 l2 : List α} :
    listCmp c l1 l2 = .eq ↔ l1 = l2 := by
  induction l1 generalizing l2 with
  | nil => cases l2 <;> simp [listCmp]
  | cons x xs ih =>
    cases l2 with
    | nil => simp [listCmp]
    | cons y ys =>
      simp only [listCmp]
      rcases hxy : c x y with _ | _ | _ <;> simp only [Ordering.then]
      · constructor
        · intro hx; cases hx
        · intro hx
          injection hx with hxy2 hxs
          have heq := (helem x y).mpr hxy2
          rw [heq] at hxy
          cases hxy
      · have hxyeq := (helem x y).mp hxy
        rw [ih]
        simp [hxyeq]
      · constructor
        · intro hx; cases hx
        · intro hx
          injection hx with hxy2 hxs
          have heq := (helem x y).mpr hxy2
          rw [heq] at hxy
          cases hxy

/-- listCmp on a strict prefix extension: the shorter list is lesser. -/
theorem listCmp_append_cons {c : α → α → Ordering} (h : LawCmp c)
    (l : List α) (x : α) (r : List α) :
    listCmp c l (l ++ x :: r) = .lt := by
  induction l with
  | nil => simp [listCmp]
  | cons y ys ih => simp [listCmp, h.refl y, Ordering.then, ih]

theorem charCmp_law : LawCmp charCmp := natCmp_law.comap Char.toNat

theorem charCmp_eq_iff {a b : Char} : charCmp a b = .eq ↔ a = b := by
  unfold charCmp
  rw [natCmp_eq_iff]
  constructor
  · intro h
    exact Char.eq_of_val_eq (UInt32.toNat.inj h)
  · intro h; rw [h]

theorem idCmp_law : LawCmp Identifier.cmp where
  swap a b := by
    cases a <;> cases b <;> simp only [Identifier.cmp]
    · exact natCmp_law.swap _ _
    · rfl
    · rfl
    · exact (listCmp_law charCmp_law).swap _ _
  lt_trans := by
    intro a b d h1 h2
    cases a <;> cases b <;> cases d <;>
      simp only [Identifier.cmp] at h1 h2 ⊢
    · exact natCmp_law.lt_trans h1 h2
    · cases h2
    · cases h1
    · cases h1
    · cases h2
    · exact (listCmp_law charCmp_law).lt_trans h1 h2
  eq_l := by
    intro a b d h1
    cases a <;> cases b <;> simp only [Identifier.cmp] at h1
    case numeric.numeric x y =>
      have hxy := natCmp_eq_iff.mp h1
      rw [hxy]
    case numeric.alphaNumeric => cases h1
    case alphaNumeric.numeric => cases h1
    case alphaNumeric.alphaNumeric x y =>
      cases d <;> simp only [Identifier.cmp]
      exact (listCmp_law charCmp_law).eq_l h1

theorem idCmp_eq_iff_beq {a b : Identifier} :
    Identifier.cmp a b = .eq ↔ Identifier.beq a b = true := by
  cases a <;> cases b <;> simp only [Identifier.cmp, Identifier.beq]
  · rw [natCmp_eq_iff]; simp
  · simp
  · simp
  · rw [listCmp_eq_iff (fun a b => charCmp_eq_iff)]; simp

theorem listCmp_eq_iff_beq {c : α → α → Ordering} {e : α → α → Bool}
    (helem : ∀ a b, c a b = .eq ↔ e a b = true) {l1 l2 : List α} :
    listCmp c l1 l2 = .eq ↔ listBeq e l1 l2 = true := by
  induction l1 generalizing l2 with
  | nil => cases l2 <;> simp [listCmp, listBeq]
  | cons x xs ih =>
    cases l2 with
    | nil => simp [listCmp, listBeq]
    | cons y ys =>
      simp only [listCmp, listBeq, Bool.and_eq_true]
      rcases hxy : c x y with _ | _ | _ <;> simp only [Ordering.then]
      · constructor
        · intro hx; cases hx
        · rintro ⟨he, _⟩
          rw [← helem x y, hxy] at he
          cases he
      · rw [ih]
        have := (helem x y).mp hxy
        simp [this]
      · constructor
        · intro hx; cases hx
        · rintro ⟨he, _⟩
          rw [← helem x y, hxy] at he
          cases he

theorem preCmp_law : LawCmp preCmp where
  swap a b := by
    cases a <;> cases b <;> simp only [preCmp] <;>
      first
      | rfl
      | exact (listCmp_law idCmp_law).swap _ _
  lt_trans := by
    intro a b d h1 h2
    cases a <;> cases b <;> cases d <;>
      simp only [preCmp] at h1 h2 ⊢ <;>
      first
      | exact absurd h1 (by decide)
      | exact absurd h2 (by decide)
      | rfl
      | exact (listCmp_law idCmp_law).lt_trans h1 h2
  eq_l := by
    intro a b d h1
    cases a <;> cases b <;> simp only [preCmp] at h1 <;>
      first
      | exact absurd h1 (by decide)
      | rfl
      | (cases d <;> simp only [preCmp] <;>
          first
          | rfl
          | exact (listCmp_law idCmp_law).eq_l h1)

theorem vcmp_law : LawCmp Version.cmp :=
  lawCmp_then (natCmp_law.comap Version.major)
    (lawCmp_then (natCmp_law.comap Version.minor)
      (lawCmp_then (natCmp_law.comap Version.patch)
        (lawCmp_then (natCmp_law.comap Version.revision)
          (preCmp_law.comap Version.pre_release))))

theorem then_eq_iff {o p : Ordering} : o.then p = .eq ↔ o = .eq ∧ p = .eq := by
  cases o <;> simp [Ordering.then]

theorem preCmp_eq_iff_beq {xs ys : List Identifier} :
    preCmp xs ys = .eq ↔ listBeq Identifier.beq xs ys = true := by
  cases xs <;> cases ys
  · simp [preCmp, listBeq]
  · simp [preCmp, listBeq]
  · simp [preCmp, listBeq]
  · exact listCmp_eq_iff_beq (fun a b => idCmp_eq_iff_beq)

theorem vcmp_eq_iff_beq {a b : Version} :
    Version.cmp a b = .eq ↔ Version.beq a b = true := by
  unfold Version.cmp Version.beq
  simp only [then_eq_iff, natCmp_eq_iff, preCmp_eq_iff_beq, Bool.and_eq_true,
    beq_iff_eq]

/-- Derived facts about the Rust comparison operators on Version. -/
theorem vle_iff {a b : Version} : vle a b = true ↔ Version.cmp a b ≠ .gt := by
  unfold vle
  cases Version.cmp a b <;> decide

theorem vlt_iff {a b : Version} : vlt a b = true ↔ Version.cmp a b = .lt := by
  unfold vlt
  cases Version.cmp a b <;> decide

theorem vle_false_iff {a b : Version} :
    vle a b = false ↔ Version.cmp a b = .gt := by
  unfold vle
  cases Version.cmp a b <;> decide

theorem vlt_false_iff {a b : Version} :
    vlt a b = false ↔ Version.cmp a b ≠ .lt := by
  unfold vlt
  cases Version.cmp a b <;> decide

/-- C6: Version ordering is a total order comparing major, minor, patch,
revision in that order; with all four equal an empty pre-release list is
strictly greater than a non-empty one; two non-empty pre-release lists
compare element-wise by Identifier ordering (numeric below alphanumeric,
alphanumeric case-insensitive), and a strict prefix is strictly lesser.
Stated: reflexivity; comparison-equality coincides with the semantic
PartialEq (antisymmetry up to ==); transitivity; swap-totality; the
field order pinned one field at a time (a differing major decides; with
majors equal a differing minor decides; with those equal a differing
patch decides; with those equal a differing revision decides — so no
permutation of the middle fields satisfies them); the pre-release rules;
the strict-prefix rule; numeric below alphanumeric; alphanumeric
case-insensitivity. -/
theorem C6_version_ordering_total_order :
    (∀ v : Version, Version.cmp v v = .eq)
    ∧ (∀ a b : Version, Version.cmp a b = .eq ↔ Version.beq a b = true)
    ∧ (∀ a b d : Version,
        Version.cmp a b = .lt → Version.cmp b d = .lt → Version.cmp a d = .lt)
    ∧ (∀ a b : Version, (Version.cmp a b).swap = Version.cmp b a)
    ∧ (∀ a b : Version, a.major ≠ b.major →
        Version.cmp a b = natCmp a.major b.major)
    ∧ (∀ a b : Version, a.major = b.major → a.minor ≠ b.minor →
        Version.cmp a b = natCmp a.minor b.minor)
    ∧ (∀ a b : Version, a.major = b.major → a.minor = b.minor →
        a.patch ≠ b.patch → Version.cmp a b = natCmp a.patch b.patch)
    ∧ (∀ a b : Version, a.major = b.major → a.minor = b.minor →
        a.patch = b.patch → a.revision ≠ b.revision →
        Version.cmp a b = natCmp a.revision b.revision)
    ∧ (∀ a b : Version, a.major = b.major → a.minor = b.minor →
        a.patch = b.patch → a.revision = b.revision →
        (a.pre_release = [] → b.pre_release ≠ [] → Version.cmp a b = .gt)
        ∧ (a.pre_release ≠ [] → b.pre_release ≠ [] →
            Version.cmp a b = listCmp Identifier.cmp a.pre_release b.pre_release))
    ∧ (∀ a b : Version, a.major = b.major → a.minor = b.minor →
        a.patch = b.patch → a.revision = b.revision → a.pre_release ≠ [] →
        ∀ x r, b.pre_release = a.pre_release ++ x :: r → Version.cmp a b = .lt)
    ∧ (∀ n s, Identifier.cmp (.numeric n) (.alphaNumeric s) = .lt)
    ∧ (∀ x y, upperChars x = upperChars y →
        Identifier.cmp (.alphaNumeric x) (.alphaNumeric y) = .eq) := by
  refine ⟨vcmp_law.refl, fun a b => vcmp_eq_iff_beq, fun a b d => vcmp_law.lt_trans,
    vcmp_law.swap, ?_, ?_, ?_, ?_, ?_, ?_, ?_, ?_⟩
  · intro a b hne
    unfold Version.cmp
    rcases h : natCmp a.major b.major with _ | _ | _
    · rfl
    · exact absurd (natCmp_eq_iff.mp h) hne
    · rfl
  · intro a b h1 hne
    unfold Version.cmp
    rw [h1, natCmp_law.refl]
    rcases h : natCmp a.minor b.minor with _ | _ | _
    · rfl
    · exact absurd (natCmp_eq_iff.mp h) hne
    · rfl
  · intro a b h1 h2 hne
    unfold Version.cmp
    rw [h1, h2, natCmp_law.refl, natCmp_law.refl]
    rcases h : natCmp a.patch b.patch with _ | _ | _
    · rfl
    · exact absurd (natCmp_eq_iff.mp h) hne
    · rfl
  · intro a b h1 h2 h3 hne
    unfold Version.cmp
    rw [h1, h2, h3, natCmp_law.refl, natCmp_law.refl, natCmp_law.refl]
    rcases h : natCmp a.revision b.revision with _ | _ | _
    · rfl
    · exact absurd (natCmp_eq_iff.mp h) hne
    · rfl
  · intro a b h1 h2 h3 h4
    unfold Version.cmp
    rw [h1, h2, h3, h4, natCmp_law.refl, natCmp_law.refl, natCmp_law.refl,
      natCmp_law.refl]
    constructor
    · intro ha hb
      rw [ha]
      cases hp : b.pre_release with
      | nil => exact absurd hp hb
      | cons x xs => rfl
    · intro ha hb
      cases hpa : a.pre_release with
      | nil => exact absurd hpa ha
      | cons x xs =>
        cases hpb : b.pre_release with
        | nil => exact absurd hpb hb
        | cons y ys => rfl
  · intro a b h1 h2 h3 h4 ha x r hb
    unfold Version.cmp
    rw [h1, h2, h3, h4, natCmp_law.refl, natCmp_law.refl, natCmp_law.refl,
      natCmp_law.refl]
    simp only [Ordering.then]
    cases hpa : a.pre_release with
    | nil => exact absurd hpa ha
    | cons y ys =>
      rw [hpa] at hb
      rw [hb]
      show listCmp Identifier.cmp (y :: ys) ((y :: ys) ++ x :: r) = .lt
      exact listCmp_append_cons idCmp_law (y :: ys) x r
  · intro n s; rfl
  · intro x y h
    show listCmp charCmp (upperChars x) (upperChars y) = .eq
    rw [h]
    exact (listCmp_law charCmp_law).refl _

/-- Witness for C6: the strict-prefix conjunct applied at 1.0.0-1 versus
1.0.0-1.2, the major-field conjunct at 1.0.0 versus 2.0.0, and the
minor-field conjunct at 1.1.9 versus 1.2.0 (the smaller minor decides
against the larger patch). -/
theorem C6_version_ordering_total_order_witness :
    Version.cmp (mkVersion 1 0 0 0 [.numeric 1] [])
        (mkVersion 1 0 0 0 [.numeric 1, .numeric 2] []) = .lt
    ∧ Version.cmp (mkVersion 1 0 0 0 [] []) (mkVersion 2 0 0 0 [] [])
        = natCmp 1 2
    ∧ Version.cmp (mkVersion 1 1 9 0 [] []) (mkVersion 1 2 0 0 [] [])
        = natCmp 1 2 := by
  refine ⟨?_, ?_, ?_⟩
  · exact C6_version_ordering_total_order.2.2.2.2.2.2.2.2.2.1
      (mkVersion 1 0 0 0 [.numeric 1] [])
      (mkVersion 1 0 0 0 [.numeric 1, .numeric 2] [])
      rfl rfl rfl rfl (by decide) (.numeric 2) [] (by decide)
  · exact C6_version_ordering_total_order.2.2.2.2.1
      (mkVersion 1 0 0 0 [] []) (mkVersion 2 0 0 0 [] []) (by decide)
  · exact C6_version_ordering_total_order.2.2.2.2.2.1
      (mkVersion 1 1 9 0 [] []) (mkVersion 1 2 0 0 [] []) rfl (by decide)

theorem xCmp_law : LawCmp xCmp where
  swap a b := by
    cases a <;> cases b <;> simp only [xCmp] <;>
      first
      | rfl
      | exact vcmp_law.swap _ _
  lt_trans := by
    intro a b d h1 h2
    cases a <;> cases b <;> cases d <;> simp only [xCmp] at h1 h2 ⊢ <;>
      first
      | exact absurd h1 (by decide)
      | exact absurd h2 (by decide)
      | rfl
      | exact vcmp_law.lt_trans h1 h2
  eq_l := by
    intro a b d h1
    cases a <;> cases b <;> simp only [xCmp] at h1 <;>
      first
      | exact absurd h1 (by decide)
      | rfl
      | (cases d <;> simp only [xCmp] <;>
          first
          | rfl
          | exact vcmp_law.eq_l h1)

theorem pCmp_law : LawCmp pCmp :=
  lawCmp_then (xCmp_law.comap Prod.fst) (natCmp_law.comap Prod.snd)

theorem specBoundCmp_law : LawCmp specBoundCmp := pCmp_law.comap Bound.pos

/-- o.then .eq = o. -/
theorem then_eq_right (o : Ordering) : o.then .eq = o := by
  cases o <;> rfl

/-- Swapped-argument versions of the vle and vlt facts. -/
theorem vcmp_ba_of_lt {v1 v2 : Version} (h : Version.cmp v1 v2 = .lt) :
    Version.cmp v2 v1 = .gt := vcmp_law.gt_iff_lt.mpr h

theorem vcmp_ba_of_gt {v1 v2 : Version} (h : Version.cmp v1 v2 = .gt) :
    Version.cmp v2 v1 = .lt := vcmp_law.gt_iff_lt.mp h

theorem devNe {v1 v2 : Version}
    (h : decide (Version.cmp v1 v2 = Ordering.eq) = false) :
    Version.cmp v1 v2 ≠ .eq := of_decide_eq_false h

/-- Helper shapes for the 36-case comparison of Bound.cmp with the
position model; one lemma per distinct pair of source arm and epsilon
pattern. -/
theorem bshape_eqeps (v1 v2 : Version) (e : Nat) :
    Version.cmp v1 v2 = (Version.cmp v1 v2).then (natCmp e e) := by
  rw [natCmp_eq_iff.mpr rfl, then_eq_right]

theorem bshape_ue_le (v1 v2 : Version) (h : Version.cmp v1 v2 ≠ .eq) :
    Version.cmp v1 v2 = (Version.cmp v1 v2).then (natCmp 0 2) := by
  rcases hv : Version.cmp v1 v2 with _ | _ | _
  · rfl
  · exact absurd hv h
  · rfl

theorem bshape_vle_ba (v1 v2 : Version) :
    (if vle v2 v1 then Ordering.gt else Ordering.lt)
      = (Version.cmp v1 v2).then Ordering.gt := by
  rcases hv : Version.cmp v1 v2 with _ | _ | _
  · rw [if_neg]
    · rfl
    · simp [vle_false_iff.mpr (vcmp_ba_of_lt hv)]
  · rw [if_pos]
    · rfl
    · simp [vle_iff.mpr (by rw [vcmp_law.eq_symm hv]; intro hx; cases hx)]
  · rw [if_pos]
    · rfl
    · simp [vle_iff.mpr (by rw [vcmp_ba_of_gt hv]; intro hx; cases hx)]

theorem bshape_vlt_ba_gated (v1 v2 : Version) (h : Version.cmp v1 v2 ≠ .eq) :
    (if vlt v2 v1 then Ordering.gt else Ordering.lt)
      = (Version.cmp v1 v2).then Ordering.gt := by
  rcases hv : Version.cmp v1 v2 with _ | _ | _
  · rw [if_neg]
    · rfl
    · simp [vlt_false_iff.mpr (by rw [vcmp_ba_of_lt hv]; intro hx; cases hx)]
  · exact absurd hv h
  · rw [if_pos]
    · rfl
    · simp [vlt_iff.mpr (vcmp_ba_of_gt hv)]

theorem bshape_vlt_ba_lt (v1 v2 : Version) :
    (if vlt v2 v1 then Ordering.gt else Ordering.lt)
      = (Version.cmp v1 v2).then Ordering.lt := by
  rcases hv : Version.cmp v1 v2 with _ | _ | _
  · rw [if_neg]
    · rfl
    · simp [vlt_false_iff.mpr (by rw [vcmp_ba_of_lt hv]; intro hx; cases hx)]
  · rw [if_neg]
    · rfl
    · simp [vlt_false_iff.mpr (by rw [vcmp_law.eq_symm hv]; intro hx; cases hx)]
  · rw [if_pos]
    · rfl
    · simp [vlt_iff.mpr (vcmp_ba_of_gt hv)]

theorem bshape_vlt_ab (v1 v2 : Version) :
    (if vlt v1 v2 then Ordering.lt else Ordering.gt)
      = (Version.cmp v1 v2).then Ordering.gt := by
  rcases hv : Version.cmp v1 v2 with _ | _ | _
  · rw [if_pos]
    · rfl
    · simp [vlt_iff.mpr hv]
  · rw [if_neg]
    · rfl
    · simp [vlt_false_iff.mpr (by rw [hv]; intro hx; cases hx)]
  · rw [if_neg]
    · rfl
    · simp [vlt_false_iff.mpr (by rw [hv]; intro hx; cases hx)]

theorem bshape_vle_ab (v1 v2 : Version) :
    (if vle v1 v2 then Ordering.lt else Ordering.gt)
      = (Version.cmp v1 v2).then Ordering.lt := by
  rcases hv : Version.cmp v1 v2 with _ | _ | _
  · rw [if_pos]
    · rfl
    · simp [vle_iff.mpr (by rw [hv]; intro hx; cases hx)]
  · rw [if_pos]
    · rfl
    · simp [vle_iff.mpr (by rw [hv]; intro hx; cases hx)]
  · rw [if_neg]
    · rfl
    · simp [vle_false_iff.mpr hv]

/-- C1 counterexample: the Bound ordering is not antisymmetric and does
not coincide with the (version, epsilon) position ordering. With
v = 1.0.0, cmp(Upper(Including v), Upper(Excluding v)) and its swapped
call both return Less, although the two bounds differ, and the position
ordering puts Upper(Including v) strictly above Upper(Excluding v). -/
theorem C1_counterexample :
    Bound.cmp (.upper (.including (mkVersion 1 0 0 0 [] [])))
        (.upper (.excluding (mkVersion 1 0 0 0 [] []))) = .lt
    ∧ Bound.cmp (.upper (.excluding (mkVersion 1 0 0 0 [] [])))
        (.upper (.including (mkVersion 1 0 0 0 [] []))) = .lt
    ∧ Bound.upper (.including (mkVersion 1 0 0 0 [] []))
        ≠ Bound.upper (.excluding (mkVersion 1 0 0 0 [] []))
    ∧ specBoundCmp (.upper (.including (mkVersion 1 0 0 0 [] [])))
        (.upper (.excluding (mkVersion 1 0 0 0 [] []))) = .gt := by
  refine ⟨by decide, by decide, by decide, by decide⟩

/-- Bound::cmp agrees with the position ordering away from the three
deviating argument patterns (helper for C1, reused below). -/
theorem bcmp_pos_agree :
    ∀ a b : Bound, bcmpDeviates a b = false → Bound.cmp a b = specBoundCmp a b := by
  intro a b hdev
  rcases a with p1 | p1 <;> rcases p1 with v1 | v1 | _ <;>
    rcases b with p2 | p2 <;> rcases p2 with v2 | v2 | _ <;>
    first
    | rfl
    | exact bshape_eqeps _ _ _
    | exact bshape_vle_ba _ _
    | exact bshape_vlt_ba_lt _ _
    | exact bshape_vlt_ab _ _
    | exact bshape_vle_ab _ _
    | exact bshape_vlt_ba_gated _ _ (devNe hdev)
    | exact bshape_ue_le _ _ (devNe hdev)

/-- What Bound::cmp and the position ordering return at the three
deviating patterns (helper for C1). -/
theorem bcmp_deviation_values :
    ∀ v1 v2 : Version, Version.cmp v1 v2 = .eq →
      Bound.cmp (.upper (.including v1)) (.upper (.excluding v2)) = .lt
      ∧ specBoundCmp (.upper (.including v1)) (.upper (.excluding v2)) = .gt
      ∧ Bound.cmp (.lower (.excluding v1)) (.upper (.including v2)) = .lt
      ∧ specBoundCmp (.lower (.excluding v1)) (.upper (.including v2)) = .gt
      ∧ Bound.cmp (.upper (.excluding v1)) (.lower (.excluding v2)) = .eq
      ∧ specBoundCmp (.upper (.excluding v1)) (.lower (.excluding v2)) = .lt := by
  intro v1 v2 hv
  have hv2 : Version.cmp v2 v1 = .eq := vcmp_law.eq_symm hv
  refine ⟨?_, ?_, ?_, ?_, ?_, ?_⟩
  · show (if vlt v2 v1 then Ordering.gt else Ordering.lt) = .lt
    rw [if_neg]
    simp [vlt_false_iff.mpr (by rw [hv2]; intro hx; cases hx)]
  · show (Version.cmp v1 v2).then (natCmp 1 0) = .gt
    rw [hv]; rfl
  · show (if vlt v2 v1 then Ordering.gt else Ordering.lt) = .lt
    rw [if_neg]
    simp [vlt_false_iff.mpr (by rw [hv2]; intro hx; cases hx)]
  · show (Version.cmp v1 v2).then (natCmp 2 1) = .gt
    rw [hv]; rfl
  · show Version.cmp v1 v2 = .eq
    exact hv
  · show (Version.cmp v1 v2).then (natCmp 0 2) = .lt
    rw [hv]; rfl

/-- C1 amended: Bound::cmp coincides with the lexicographic
(version, epsilon) position ordering of the spec on every pair of
bounds except three patterns with comparison-equal versions:
Upper(Including v) vs Upper(Excluding v) and Lower(Excluding v) vs
Upper(Including v) return Less where the position model says Greater,
and Upper(Excluding v) vs Lower(Excluding v) returns Equal where the
position model says Less; consequently the ordering is not
antisymmetric and not a total order. -/
theorem C1_bound_order_amended :
    (∀ a b : Bound, bcmpDeviates a b = false → Bound.cmp a b = specBoundCmp a b)
    ∧ (∀ v1 v2 : Version, Version.cmp v1 v2 = .eq →
        Bound.cmp (.upper (.including v1)) (.upper (.excluding v2)) = .lt
        ∧ specBoundCmp (.upper (.including v1)) (.upper (.excluding v2)) = .gt
        ∧ Bound.cmp (.lower (.excluding v1)) (.upper (.including v2)) = .lt
        ∧ specBoundCmp (.lower (.excluding v1)) (.upper (.including v2)) = .gt
        ∧ Bound.cmp (.upper (.excluding v1)) (.lower (.excluding v2)) = .eq
        ∧ specBoundCmp (.upper (.excluding v1)) (.lower (.excluding v2)) = .lt) :=
  ⟨bcmp_pos_agree, bcmp_deviation_values⟩

/-- Witness for C1 amended: the coincidence at a non-deviating pair,
and the deviation facts at version 1.0.0. -/
theorem C1_bound_order_amended_witness :
    Bound.cmp (.lower (.including (mkVersion 1 2 3 0 [] [])))
        (.upper (.excluding (mkVersion 2 0 0 0 [] [])))
      = specBoundCmp (.lower (.including (mkVersion 1 2 3 0 [] [])))
          (.upper (.excluding (mkVersion 2 0 0 0 [] [])))
    ∧ Bound.cmp (.upper (.excluding (mkVersion 1 0 0 0 [] [])))
        (.lower (.excluding (mkVersion 1 0 0 0 [] []))) = .eq := by
  constructor
  · exact C1_bound_order_amended.1 _ _ (by decide)
  · exact (C1_bound_order_amended.2 (mkVersion 1 0 0 0 [] [])
      (mkVersion 1 0 0 0 [] []) (by decide)).2.2.2.2.1

theorem lowerSat_iff_pos (p : Predicate) (v : Version) :
    lowerSat (.lower p) v = true ↔
      pCmp (Bound.pos (.lower p)) (vpos v) ≠ .gt := by
  cases p with
  | excluding lo =>
    rcases hv : Version.cmp lo v with _ | _ | _ <;>
      (simp [lowerSat, Bound.pos, vpos, pCmp, xCmp, vlt, hv, Ordering.then,
        natCmp]; try decide)
  | including lo =>
    rcases hv : Version.cmp lo v with _ | _ | _ <;>
      (simp [lowerSat, Bound.pos, vpos, pCmp, xCmp, vle, hv, Ordering.then,
        natCmp]; try decide)
  | unbounded =>
    simp [lowerSat, Bound.pos, vpos, pCmp, xCmp, Ordering.then]

theorem upperSat_iff_pos (p : Predicate) (v : Version) :
    upperSat (.upper p) v = true ↔
      pCmp (vpos v) (Bound.pos (.upper p)) ≠ .gt := by
  cases p with
  | excluding up =>
    rcases hv : Version.cmp v up with _ | _ | _ <;>
      (simp [upperSat, Bound.pos, vpos, pCmp, xCmp, vlt, hv, Ordering.then,
        natCmp]; try decide)
  | including up =>
    rcases hv : Version.cmp v up with _ | _ | _ <;>
      (simp [upperSat, Bound.pos, vpos, pCmp, xCmp, vle, hv, Ordering.then,
        natCmp]; try decide)
  | unbounded =>
    simp [upperSat, Bound.pos, vpos, pCmp, xCmp, Ordering.then]

theorem lowerSat_false_iff (p : Predicate) (v : Version) :
    lowerSat (.lower p) v = false ↔
      pCmp (Bound.pos (.lower p)) (vpos v) = .gt := by
  constructor
  · intro hf
    by_contra hne
    have h2 := (lowerSat_iff_pos p v).mpr hne
    rw [hf] at h2; cases h2
  · intro hg
    cases hls : lowerSat (.lower p) v
    · rfl
    · exact absurd hg ((lowerSat_iff_pos p v).mp hls)

theorem upperSat_false_iff (p : Predicate) (v : Version) :
    upperSat (.upper p) v = false ↔
      pCmp (vpos v) (Bound.pos (.upper p)) = .gt := by
  constructor
  · intro hf
    by_contra hne
    have h2 := (upperSat_iff_pos p v).mpr hne
    rw [hf] at h2; cases h2
  · intro hg
    cases hus : upperSat (.upper p) v
    · rfl
    · exact absurd hg ((upperSat_iff_pos p v).mp hus)

/-- Satisfying the flipped upper edge is exactly failing the lower edge. -/
theorem flip_upper_compl (pm : Predicate) (hpm : pm ≠ .unbounded)
    (v : Version) :
    upperSat (.upper pm.flip) v = !(lowerSat (.lower pm) v) := by
  cases pm with
  | excluding w =>
    show vle v w = !(vlt w v)
    rcases hv : Version.cmp v w with _ | _ | _
    · simp [vle, vlt, hv, vcmp_ba_of_lt hv]
      try decide
    · simp [vle, vlt, hv, vcmp_law.eq_symm hv]
      try decide
    · simp [vle, vlt, hv, vcmp_ba_of_gt hv]
      try decide
  | including w =>
    show vlt v w = !(vle w v)
    rcases hv : Version.cmp v w with _ | _ | _
    · simp [vle, vlt, hv, vcmp_ba_of_lt hv]
      try decide
    · simp [vle, vlt, hv, vcmp_law.eq_symm hv]
      try decide
    · simp [vle, vlt, hv, vcmp_ba_of_gt hv]
      try decide
  | unbounded => exact absurd rfl hpm

/-- Satisfying the flipped lower edge is exactly failing the upper edge. -/
theorem flip_lower_compl (q : Predicate) (hq : q ≠ .unbounded) (v : Version) :
    lowerSat (.lower q.flip) v = !(upperSat (.upper q) v) := by
  cases q with
  | excluding w =>
    show vle w v = !(vlt v w)
    rcases hv : Version.cmp v w with _ | _ | _
    · simp [vle, vlt, hv, vcmp_ba_of_lt hv]
      try decide
    · simp [vle, vlt, hv, vcmp_law.eq_symm hv]
      try decide
    · simp [vle, vlt, hv, vcmp_ba_of_gt hv]
      try decide
  | including w =>
    show vlt w v = !(vle v w)
    rcases hv : Version.cmp v w with _ | _ | _
    · simp [vle, vlt, hv, vcmp_ba_of_lt hv]
      try decide
    · simp [vle, vlt, hv, vcmp_law.eq_symm hv]
      try decide
    · simp [vle, vlt, hv, vcmp_ba_of_gt hv]
      try decide
  | unbounded => exact absurd rfl hq

/-- The flipped upper edge sits no higher than the lower edge it came
from. -/
theorem flipU_le_lower (pm : Predicate) (hpm : pm ≠ .unbounded) :
    pCmp (Bound.pos (.upper pm.flip)) (Bound.pos (.lower pm)) ≠ .gt := by
  cases pm with
  | excluding w =>
    simp [Predicate.flip, Bound.pos, pCmp, xCmp, vcmp_law.refl w,
      Ordering.then, natCmp]
  | including w =>
    simp [Predicate.flip, Bound.pos, pCmp, xCmp, vcmp_law.refl w,
      Ordering.then, natCmp]
  | unbounded => exact absurd rfl hpm

/-- The upper edge sits no higher than its flipped lower edge. -/
theorem upper_le_flipL (q : Predicate) (hq : q ≠ .unbounded) :
    pCmp (Bound.pos (.upper q)) (Bound.pos (.lower q.flip)) ≠ .gt := by
  cases q with
  | excluding w =>
    simp [Predicate.flip, Bound.pos, pCmp, xCmp, vcmp_law.refl w,
      Ordering.then, natCmp]
  | including w =>
    simp [Predicate.flip, Bound.pos, pCmp, xCmp, vcmp_law.refl w,
      Ordering.then, natCmp]
  | unbounded => exact absurd rfl hq

/-- Nothing lies between (w, e) and (w, e + 1): going strictly below the
latter means going at most to the former. -/
theorem pCmp_lt_pred {x : XVer × Nat} {w : Version} {e : Nat}
    (h : pCmp x (.fin w, e + 1) = .lt) : pCmp x (.fin w, e) ≠ .gt := by
  rcases x with ⟨xv, xe⟩
  cases xv with
  | negInf => simp [pCmp, xCmp, Ordering.then]
  | posInf => simp [pCmp, xCmp, Ordering.then] at h
  | fin u =>
    simp only [pCmp, xCmp] at h ⊢
    rcases hv : Version.cmp u w with _ | _ | _ <;> rw [hv] at h <;>
      simp only [Ordering.then] at h ⊢
    · intro hx; cases hx
    · have hxe : xe < e + 1 := natCmp_lt_iff.mp h
      intro hg
      have := natCmp_gt_iff.mp hg
      omega
    · cases h

/-- Dually, going strictly above (w, e) means going at least to
(w, e + 1). -/
theorem pCmp_succ_lt {y : XVer × Nat} {w : Version} {e : Nat}
    (h : pCmp (.fin w, e) y = .lt) : pCmp (.fin w, e + 1) y ≠ .gt := by
  rcases y with ⟨yv, ye⟩
  cases yv with
  | negInf => simp [pCmp, xCmp, Ordering.then] at h
  | posInf => simp [pCmp, xCmp, Ordering.then]
  | fin u =>
    simp only [pCmp, xCmp] at h ⊢
    rcases hv : Version.cmp w u with _ | _ | _ <;> rw [hv] at h <;>
      simp only [Ordering.then] at h ⊢
    · intro hx; cases hx
    · have hye : e < ye := natCmp_lt_iff.mp h
      intro hg
      have := natCmp_gt_iff.mp hg
      omega
    · cases h

/-- The lower-lower arms of Bound::cmp never deviate. -/
theorem bcmpDev_ll (p q : Predicate) :
    bcmpDeviates (.lower p) (.lower q) = false := by
  cases p <;> cases q <;> rfl

/-- Bound::cmp on two lower bounds is exactly the position comparison. -/
theorem bcmp_ll_pos (p q : Predicate) :
    Bound.cmp (.lower p) (.lower q)
      = pCmp (Bound.pos (.lower p)) (Bound.pos (.lower q)) :=
  bcmp_pos_agree _ _ (bcmpDev_ll p q)

/-- Bound::cmp returning Greater on two upper bounds is semantically
strict in the position model. -/
theorem bcmp_uu_gt_pos {p q : Predicate}
    (h : Bound.cmp (.upper p) (.upper q) = .gt) :
    pCmp (Bound.pos (.upper p)) (Bound.pos (.upper q)) = .gt := by
  cases hB : bcmpDeviates (.upper p) (.upper q) with
  | false => exact ((bcmp_pos_agree _ _ hB).symm.trans h : specBoundCmp _ _ = _)
  | true =>
    cases p <;> cases q <;> simp [bcmpDeviates] at hB
    case including.excluding v1 v2 =>
      have hlt : Bound.cmp (.upper (.including v1)) (.upper (.excluding v2))
          = .lt := (bcmp_deviation_values v1 v2 hB).1
      rw [h] at hlt
      cases hlt

/-- Bound::cmp returning Equal on two lower bounds implies the derived
PartialEq holds. -/
theorem bcmp_ll_eq_beq {p q : Predicate}
    (h : Bound.cmp (.lower p) (.lower q) = .eq) :
    Bound.beq (.lower p) (.lower q) = true := by
  cases p <;> cases q <;>
    simp only [Bound.cmp, Bound.beq, Predicate.beq] at h ⊢
  case excluding.excluding v1 v2 =>
    exact vcmp_eq_iff_beq.mp h
  case excluding.including v1 v2 =>
    split at h <;> cases h
  case excluding.unbounded v1 => cases h
  case including.excluding v1 v2 =>
    split at h <;> cases h
  case including.including v1 v2 =>
    exact vcmp_eq_iff_beq.mp h
  case including.unbounded v1 => cases h
  case unbounded.excluding v2 => cases h
  case unbounded.including v2 => cases h

/-- Reflexivity of the derived PartialEq chain. -/
theorem vbeq_refl (v : Version) : Version.beq v v = true :=
  vcmp_eq_iff_beq.mp (vcmp_law.refl v)

theorem pbeq_refl (p : Predicate) : Predicate.beq p p = true := by
  cases p <;> simp [Predicate.beq, vbeq_refl]

theorem bbeq_refl (b : Bound) : Bound.beq b b = true := by
  cases b <;> simp [Bound.beq, pbeq_refl]

theorem csbeq_refl (s : ComparatorSet) : ComparatorSet.beq s s = true := by
  simp [ComparatorSet.beq, bbeq_refl]

/-- Comparison-equal versions are interchangeable inside the bound tests. -/
theorem lowerSat_congr {x y : Bound} (h : Bound.beq x y = true)
    (v : Version) : lowerSat x v = lowerSat y v := by
  rcases x with p | p <;> rcases y with q | q <;>
    simp only [Bound.beq] at h <;>
    try (exact absurd h (by decide))
  case lower.lower =>
    cases p <;> cases q <;> simp only [Predicate.beq] at h <;>
      simp only [lowerSat] <;>
      try (exact absurd h (by decide))
    case excluding.excluding w w2 =>
      unfold vlt
      rw [vcmp_law.eq_l (vcmp_eq_iff_beq.mpr h)]
    case including.including w w2 =>
      unfold vle
      rw [vcmp_law.eq_l (vcmp_eq_iff_beq.mpr h)]
  case upper.upper => rfl

theorem upperSat_congr {x y : Bound} (h : Bound.beq x y = true)
    (v : Version) : upperSat x v = upperSat y v := by
  rcases x with p | p <;> rcases y with q | q <;>
    simp only [Bound.beq] at h <;>
    try (exact absurd h (by decide))
  case lower.lower => rfl
  case upper.upper =>
    cases p <;> cases q <;> simp only [Predicate.beq] at h <;>
      simp only [upperSat] <;>
      try (exact absurd h (by decide))
    case excluding.excluding w w2 =>
      unfold vlt
      rw [vcmp_law.eq_r (vcmp_eq_iff_beq.mpr h)]
    case including.including w w2 =>
      unfold vle
      rw [vcmp_law.eq_r (vcmp_eq_iff_beq.mpr h)]

/-- PartialEq-equal comparator sets satisfy the same versions. -/
theorem sat_congr {a b : ComparatorSet} (h : ComparatorSet.beq a b = true)
    (v : Version) : a.satisfies v = b.satisfies v := by
  unfold ComparatorSet.beq at h
  rcases Bool.and_eq_true_iff.mp h with ⟨hu, hl⟩
  unfold ComparatorSet.satisfies
  rw [lowerSat_congr hl, upperSat_congr hu]

theorem vbeq_ne {v1 v2 : Version} (h : Version.cmp v1 v2 ≠ .eq) :
    Version.beq v1 v2 = false := by
  cases hb : Version.beq v1 v2
  · rfl
  · exact absurd (vcmp_eq_iff_beq.mpr hb) h

/-- Whenever the constructor succeeds, the produced set stores exactly
the two bounds it was given. -/
theorem new_shape {l u : Bound} {c : ComparatorSet}
    (h : ComparatorSet.new l u = some c) : c = ⟨u, l⟩ := by
  unfold ComparatorSet.new at h
  split at h
  · cases h
  · split at h
    · injection h with h2; exact h2.symm
    · split at h
      · injection h with h2; exact h2.symm
      · cases h

/-- ComparatorSet::new on properly oriented bounds succeeds exactly when
the lower position is at most the upper position, and then returns the
set made of its arguments. -/
theorem new_lu_cases (p q : Predicate) :
    (pCmp (Bound.pos (.lower p)) (Bound.pos (.upper q)) ≠ .gt
      ∧ ComparatorSet.new (.lower p) (.upper q) = some ⟨.upper q, .lower p⟩)
    ∨ (pCmp (Bound.pos (.lower p)) (Bound.pos (.upper q)) = .gt
      ∧ ComparatorSet.new (.lower p) (.upper q) = none) := by
  cases p with
  | unbounded =>
    left
    constructor
    · cases q <;> simp [Bound.pos, pCmp, xCmp, Ordering.then]
    · have hble : ble (.lower .unbounded) (.upper q) = true := by
        cases q <;> rfl
      cases q <;> simp [ComparatorSet.new, hble]
  | excluding v1 =>
    cases q with
    | unbounded =>
      left
      refine ⟨by simp [Bound.pos, pCmp, xCmp, Ordering.then], ?_⟩
      rfl
    | including v2 =>
      rcases hv : Version.cmp v1 v2 with _ | _ | _
      · left
        constructor
        · simp [Bound.pos, pCmp, xCmp, hv, Ordering.then]
        · have hbeq := @vbeq_ne v1 v2 (by rw [hv]; decide)
          have hble : ble (.lower (.excluding v1)) (.upper (.including v2))
              = true := by
            show ((if vlt v2 v1 then Ordering.gt else Ordering.lt) != .gt)
              = true
            rw [if_neg]
            · rfl
            · simp [vlt_false_iff.mpr (by rw [vcmp_ba_of_lt hv]; decide)]
          simp [ComparatorSet.new, hbeq, hble]
      · right
        constructor
        · simp [Bound.pos, pCmp, xCmp, hv, Ordering.then, natCmp]
        · have hbeq : Version.beq v1 v2 = true := vcmp_eq_iff_beq.mp hv
          simp [ComparatorSet.new, hbeq]
      · right
        constructor
        · simp [Bound.pos, pCmp, xCmp, hv, Ordering.then]
        · have hbeq := @vbeq_ne v1 v2 (by rw [hv]; decide)
          have hble : ble (.lower (.excluding v1)) (.upper (.including v2))
              = false := by
            show ((if vlt v2 v1 then Ordering.gt else Ordering.lt) != .gt)
              = false
            rw [if_pos]
            · rfl
            · simp [vlt_iff.mpr (vcmp_ba_of_gt hv)]
          simp [ComparatorSet.new, hbeq, hble]
    | excluding v2 =>
      rcases hv : Version.cmp v1 v2 with _ | _ | _
      · left
        constructor
        · simp [Bound.pos, pCmp, xCmp, hv, Ordering.then]
        · have hble : ble (.lower (.excluding v1)) (.upper (.excluding v2))
              = true := by
            show ((if vle v2 v1 then Ordering.gt else Ordering.lt) != .gt)
              = true
            rw [if_neg]
            · rfl
            · simp [vle_false_iff.mpr (vcmp_ba_of_lt hv)]
          simp [ComparatorSet.new, hble]
      · right
        constructor
        · simp [Bound.pos, pCmp, xCmp, hv, Ordering.then, natCmp]
        · have hble : ble (.lower (.excluding v1)) (.upper (.excluding v2))
              = false := by
            show ((if vle v2 v1 then Ordering.gt else Ordering.lt) != .gt)
              = false
            rw [if_pos]
            · rfl
            · simp [vle_iff.mpr (by rw [vcmp_law.eq_symm hv]; decide)]
          simp [ComparatorSet.new, hble]
      · right
        constructor
        · simp [Bound.pos, pCmp, xCmp, hv, Ordering.then]
        · have hble : ble (.lower (.excluding v1)) (.upper (.excluding v2))
              = false := by
            show ((if vle v2 v1 then Ordering.gt else Ordering.lt) != .gt)
              = false
            rw [if_pos]
            · rfl
            · simp [vle_iff.mpr (by rw [vcmp_ba_of_gt hv]; decide)]
          simp [ComparatorSet.new, hble]
  | including v1 =>
    cases q with
    | unbounded =>
      left
      refine ⟨by simp [Bound.pos, pCmp, xCmp, Ordering.then], ?_⟩
      rfl
    | including v2 =>
      rcases hv : Version.cmp v1 v2 with _ | _ | _
      · left
        constructor
        · simp [Bound.pos, pCmp, xCmp, hv, Ordering.then]
        · have hbeq := @vbeq_ne v1 v2 (by rw [hv]; decide)
          have hble : ble (.lower (.including v1)) (.upper (.including v2))
              = true := by
            show (Version.cmp v1 v2 != .gt) = true
            simp [hv]
            try decide
          simp [ComparatorSet.new, hbeq, hble]
      · left
        constructor
        · simp [Bound.pos, pCmp, xCmp, hv, Ordering.then, natCmp]
        · have hbeq : Version.beq v1 v2 = true := vcmp_eq_iff_beq.mp hv
          simp [ComparatorSet.new, hbeq]
      · right
        constructor
        · simp [Bound.pos, pCmp, xCmp, hv, Ordering.then]
        · have hbeq := @vbeq_ne v1 v2 (by rw [hv]; decide)
          have hble : ble (.lower (.including v1)) (.upper (.including v2))
              = false := by
            show (Version.cmp v1 v2 != .gt) = false
            simp [hv]
            try decide
          simp [ComparatorSet.new, hbeq, hble]
    | excluding v2 =>
      rcases hv : Version.cmp v1 v2 with _ | _ | _
      · left
        constructor
        · simp [Bound.pos, pCmp, xCmp, hv, Ordering.then]
        · have hbeq := @vbeq_ne v1 v2 (by rw [hv]; decide)
          have hble : ble (.lower (.including v1)) (.upper (.excluding v2))
              = true := by
            show ((if vle v2 v1 then Ordering.gt else Ordering.lt) != .gt)
              = true
            rw [if_neg]
            · rfl
            · simp [vle_false_iff.mpr (vcmp_ba_of_lt hv)]
          simp [ComparatorSet.new, hbeq, hble]
      · right
        constructor
        · simp [Bound.pos, pCmp, xCmp, hv, Ordering.then, natCmp]
        · have hbeq : Version.beq v1 v2 = true := vcmp_eq_iff_beq.mp hv
          simp [ComparatorSet.new, hbeq]
      · right
        constructor
        · simp [Bound.pos, pCmp, xCmp, hv, Ordering.then]
        · have hbeq := @vbeq_ne v1 v2 (by rw [hv]; decide)
          have hble : ble (.lower (.including v1)) (.upper (.excluding v2))
              = false := by
            show ((if vle v2 v1 then Ordering.gt else Ordering.lt) != .gt)
              = false
            rw [if_pos]
            · rfl
            · simp [vle_iff.mpr (by rw [vcmp_ba_of_gt hv]; decide)]
          simp [ComparatorSet.new, hbeq, hble]

theorem new_lu_some {p q : Predicate}
    (h : pCmp (Bound.pos (.lower p)) (Bound.pos (.upper q)) ≠ .gt) :
    ComparatorSet.new (.lower p) (.upper q) = some ⟨.upper q, .lower p⟩ := by
  rcases new_lu_cases p q with ⟨_, h2⟩ | ⟨h1, _⟩
  · exact h2
  · exact absurd h1 h

theorem new_lu_pos {p q : Predicate} {c : ComparatorSet}
    (h : ComparatorSet.new (.lower p) (.upper q) = some c) :
    pCmp (Bound.pos (.lower p)) (Bound.pos (.upper q)) ≠ .gt := by
  rcases new_lu_cases p q with ⟨h1, _⟩ | ⟨_, h2⟩
  · exact h1
  · rw [h2] at h; cases h

theorem rmax_choice (a b : Bound) : rmax a b = a ∨ rmax a b = b := by
  unfold rmax
  split
  · exact Or.inl rfl
  · exact Or.inr rfl

theorem rmin_choice (a b : Bound) : rmin a b = a ∨ rmin a b = b := by
  unfold rmin
  split
  · exact Or.inr rfl
  · exact Or.inl rfl

theorem rmax_ll_ge_left (p q : Predicate) :
    pCmp (Bound.pos (.lower p)) (Bound.pos (rmax (.lower p) (.lower q)))
      ≠ .gt := by
  unfold rmax
  split
  · exact fun hx => absurd ((pCmp_law.comap Bound.pos).refl _ ▸ hx) (by decide)
  · rename_i hgt
    rw [bcmp_ll_pos] at hgt
    exact hgt

theorem rmax_ll_ge_right (p q : Predicate) :
    pCmp (Bound.pos (.lower q)) (Bound.pos (rmax (.lower p) (.lower q)))
      ≠ .gt := by
  unfold rmax
  split
  · rename_i hgt
    rw [bcmp_ll_pos] at hgt
    have hlt := (pCmp_law.comap Bound.pos).gt_iff_lt.mp hgt
    simp only at hlt
    rw [hlt]
    decide
  · exact fun hx => absurd ((pCmp_law.comap Bound.pos).refl _ ▸ hx) (by decide)

theorem rmin_uu_le_left (p q : Predicate) :
    pCmp (Bound.pos (rmin (.upper p) (.upper q))) (Bound.pos (.upper p))
      ≠ .gt := by
  unfold rmin
  split
  · rename_i hgt
    have hpos := bcmp_uu_gt_pos hgt
    have hlt := (pCmp_law.comap Bound.pos).gt_iff_lt.mp hpos
    simp only at hlt
    rw [hlt]
    decide
  · exact fun hx => absurd ((pCmp_law.comap Bound.pos).refl _ ▸ hx) (by decide)

theorem sat_split {s : ComparatorSet} {v : Version}
    (h : s.satisfies v = true) :
    lowerSat s.lower v = true ∧ upperSat s.upper v = true :=
  Bool.and_eq_true_iff.mp h

theorem sat_join {s : ComparatorSet} {v : Version}
    (hl : lowerSat s.lower v = true) (hu : upperSat s.upper v = true) :
    s.satisfies v = true := by
  unfold ComparatorSet.satisfies
  rw [hl, hu]
  rfl

/-- A satisfied set necessarily has properly oriented bounds (the
catch-all arms of the bound tests return false). -/
theorem wf_of_sat {s : ComparatorSet} {v : Version}
    (h : s.satisfies v = true) :
    ∃ p q, s.lower = .lower p ∧ s.upper = .upper q := by
  rcases sat_split h with ⟨hl, hu⟩
  rcases hsl : s.lower with p | p
  · rcases hsu : s.upper with q | q
    · rw [hsu] at hu
      cases hu
    · exact ⟨p, q, rfl, rfl⟩
  · rw [hsl] at hl
    cases hl

theorem wf_dest {s : ComparatorSet} (h : s.wf = true) :
    ∃ p q, s.lower = .lower p ∧ s.upper = .upper q := by
  rcases hsl : s.lower with p | p
  · rcases hsu : s.upper with q | q
    · exfalso
      unfold ComparatorSet.wf at h
      rw [hsl, hsu] at h
      cases h
    · exact ⟨p, q, rfl, rfl⟩
  · exfalso
    unfold ComparatorSet.wf at h
    rw [hsl] at h
    cases h

/-- If a version satisfies both sets then their intersection is a set
that it satisfies (the constructor cannot fail between the two
positions meeting at the witness). -/
theorem intersect_some_of_sat {s o : ComparatorSet} {v : Version}
    (hs : s.satisfies v = true) (ho : o.satisfies v = true) :
    ∃ C, s.intersect o = some C ∧ C.satisfies v = true := by
  rcases wf_of_sat hs with ⟨p1, q1, hsl, hsu⟩
  rcases wf_of_sat ho with ⟨p2, q2, hol, hou⟩
  rcases sat_split hs with ⟨hsl2, hsu2⟩
  rcases sat_split ho with ⟨hol2, hou2⟩
  rw [hsl] at hsl2
  rw [hsu] at hsu2
  rw [hol] at hol2
  rw [hou] at hou2
  have hmaxSat : lowerSat (rmax (.lower p1) (.lower p2)) v = true := by
    rcases rmax_choice (.lower p1) (.lower p2) with h2 | h2 <;> rw [h2]
    · exact hsl2
    · exact hol2
  have hminSat : upperSat (rmin (.upper q1) (.upper q2)) v = true := by
    rcases rmin_choice (.upper q1) (.upper q2) with h2 | h2 <;> rw [h2]
    · exact hsu2
    · exact hou2
  obtain ⟨pm, hpm⟩ : ∃ pm, rmax (.lower p1) (.lower p2) = .lower pm := by
    rcases rmax_choice (.lower p1) (.lower p2) with h2 | h2
    · exact ⟨p1, h2⟩
    · exact ⟨p2, h2⟩
  obtain ⟨qm, hqm⟩ : ∃ qm, rmin (.upper q1) (.upper q2) = .upper qm := by
    rcases rmin_choice (.upper q1) (.upper q2) with h2 | h2
    · exact ⟨q1, h2⟩
    · exact ⟨q2, h2⟩
  rw [hpm] at hmaxSat
  rw [hqm] at hminSat
  refine ⟨⟨.upper qm, .lower pm⟩, ?_, ?_⟩
  · show ComparatorSet.new (rmax s.lower o.lower) (rmin s.upper o.upper) = _
    rw [hsl, hsu, hol, hou, hpm, hqm]
    exact new_lu_some (pCmp_law.le_trans
      ((lowerSat_iff_pos pm v).mp hmaxSat)
      ((upperSat_iff_pos qm v).mp hminSat))
  · exact sat_join hmaxSat hminSat

/-- Whatever the intersection produces is inside the left operand. -/
theorem intersect_sat_left {s o C : ComparatorSet} {v : Version}
    (hws : s.wf = true) (hwo : o.wf = true)
    (hC : s.intersect o = some C) (hv : C.satisfies v = true) :
    s.satisfies v = true := by
  rcases wf_dest hws with ⟨p1, q1, hsl, hsu⟩
  rcases wf_dest hwo with ⟨p2, q2, hol, hou⟩
  unfold ComparatorSet.intersect at hC
  rw [hsl, hsu, hol, hou] at hC
  have hshape := new_shape hC
  rcases sat_split hv with ⟨hvl, hvu⟩
  rw [hshape] at hvl hvu
  simp only at hvl hvu
  have hlow : lowerSat s.lower v = true := by
    rw [hsl]
    rcases rmax_choice (.lower p1) (.lower p2) with hmx | hmx
    · rw [hmx] at hvl
      exact hvl
    · rw [hmx] at hvl
      rw [lowerSat_iff_pos]
      exact pCmp_law.le_trans (rmax_ll_ge_left p1 p2)
        (by rw [hmx]; exact (lowerSat_iff_pos p2 v).mp hvl)
  have hup : upperSat s.upper v = true := by
    rw [hsu, upperSat_iff_pos]
    obtain ⟨qm, hqm⟩ : ∃ qm, rmin (.upper q1) (.upper q2) = .upper qm := by
      rcases rmin_choice (.upper q1) (.upper q2) with h2 | h2
      · exact ⟨q1, h2⟩
      · exact ⟨q2, h2⟩
    have hle := rmin_uu_le_left q1 q2
    rw [hqm] at hvu hle
    exact pCmp_law.le_trans ((upperSat_iff_pos qm v).mp hvu) hle
  exact sat_join hlow hup

theorem bcmp_refl (b : Bound) : Bound.cmp b b = .eq := by
  rcases b with p | p <;> cases p <;>
    simp [Bound.cmp, vcmp_law.refl]

theorem pred_step {x : XVer × Nat} {pm : Predicate} (hpm : pm ≠ .unbounded)
    (h : pCmp x (Bound.pos (.lower pm)) = .lt) :
    pCmp x (Bound.pos (.upper pm.flip)) ≠ .gt := by
  cases pm with
  | excluding w => exact pCmp_lt_pred (e := 1) h
  | including w => exact pCmp_lt_pred (e := 0) h
  | unbounded => exact absurd rfl hpm

theorem succ_step {y : XVer × Nat} {q : Predicate} (hq : q ≠ .unbounded)
    (h : pCmp (Bound.pos (.upper q)) y = .lt) :
    pCmp (Bound.pos (.lower q.flip)) y ≠ .gt := by
  cases q with
  | excluding w => exact pCmp_succ_lt (e := 0) h
  | including w => exact pCmp_succ_lt (e := 1) h
  | unbounded => exact absurd rfl hq

/-- When Bound::cmp says an upper bound is strictly below another, the
position model agrees (the deviating pattern returns Less only with the
positions the other way, which the rmin choice analysis excludes). -/
theorem rmin_lt_pos {q1 q2 qm : Predicate}
    (hqm : rmin (.upper q1) (.upper q2) = .upper qm)
    (hblt : Bound.cmp (.upper qm) (.upper q1) = .lt) :
    pCmp (Bound.pos (.upper qm)) (Bound.pos (.upper q1)) = .lt := by
  unfold rmin at hqm
  split at hqm
  · rename_i hc
    injection hqm with h2
    subst h2
    have hpos := bcmp_uu_gt_pos hc
    exact (pCmp_law.comap Bound.pos).gt_iff_lt.mp hpos
  · injection hqm with h2
    subst h2
    rw [bcmp_refl] at hblt
    cases hblt

/-- The rmax choice analysis for lower bounds: a strict Bound::cmp
result means rmax picked the right argument. -/
theorem rmax_lt_shape {p1 p2 pm : Predicate}
    (hpm : rmax (.lower p1) (.lower p2) = .lower pm)
    (hblt : Bound.cmp (.lower p1) (.lower pm) = .lt) :
    Bound.cmp (.lower p1) (.lower p2) ≠ .gt ∧ pm = p2 := by
  unfold rmax at hpm
  split at hpm
  · injection hpm with h2
    subst h2
    rw [bcmp_refl] at hblt
    cases hblt
  · rename_i hc
    injection hpm with h2
    subst h2
    exact ⟨hc, rfl⟩

theorem pm_ne_unb_of_blt {p1 pm : Predicate}
    (h : Bound.cmp (.lower p1) (.lower pm) = .lt) : pm ≠ .unbounded := by
  intro he
  subst he
  cases p1 <;> simp [Bound.cmp] at h

theorem qm_ne_unb_of_blt {qm q1 : Predicate}
    (h : Bound.cmp (.upper qm) (.upper q1) = .lt) : qm ≠ .unbounded := by
  intro he
  subst he
  cases q1 <;> simp [Bound.cmp] at h

/-- A version in the left piece of a difference is in the left operand. -/
theorem piece1_sat_sub {p1 pm q1 qm : Predicate} {v : Version}
    (hpm : pm ≠ .unbounded)
    (hIpos : pCmp (Bound.pos (.lower pm)) (Bound.pos (.upper qm)) ≠ .gt)
    (hminu : pCmp (Bound.pos (.upper qm)) (Bound.pos (.upper q1)) ≠ .gt)
    (hsat : ComparatorSet.satisfies ⟨.upper pm.flip, .lower p1⟩ v = true) :
    lowerSat (.lower p1) v = true ∧ upperSat (.upper q1) v = true := by
  rcases sat_split hsat with ⟨hl, hu⟩
  refine ⟨hl, ?_⟩
  rw [upperSat_iff_pos]
  exact pCmp_law.le_trans ((upperSat_iff_pos _ v).mp hu)
    (pCmp_law.le_trans (flipU_le_lower pm hpm)
      (pCmp_law.le_trans hIpos hminu))

/-- A version in the right piece of a difference is in the left operand. -/
theorem piece2_sat_sub {p1 pm q1 qm : Predicate} {v : Version}
    (hqm : qm ≠ .unbounded)
    (hmaxl : pCmp (Bound.pos (.lower p1)) (Bound.pos (.lower pm)) ≠ .gt)
    (hIpos : pCmp (Bound.pos (.lower pm)) (Bound.pos (.upper qm)) ≠ .gt)
    (hsat : ComparatorSet.satisfies ⟨.upper q1, .lower qm.flip⟩ v = true) :
    lowerSat (.lower p1) v = true ∧ upperSat (.upper q1) v = true := by
  rcases sat_split hsat with ⟨hl, hu⟩
  refine ⟨?_, hu⟩
  rw [lowerSat_iff_pos]
  exact pCmp_law.le_trans hmaxl
    (pCmp_law.le_trans hIpos
      (pCmp_law.le_trans (upper_le_flipL qm hqm)
        ((lowerSat_iff_pos _ v).mp hl)))

theorem blt_iff {a b : Bound} : blt a b = true ↔ Bound.cmp a b = .lt := by
  unfold blt
  cases Bound.cmp a b <;> decide

theorem blt_false_iff {a b : Bound} :
    blt a b = false ↔ Bound.cmp a b ≠ .lt := by
  unfold blt
  cases Bound.cmp a b <;> decide

/-- When the position model says an upper bound is strictly below
another, Bound::cmp agrees (the deviating pattern has positions Greater,
so it cannot occur here). -/
theorem bcmp_uu_lt_of_pos {p q : Predicate}
    (h : pCmp (Bound.pos (.upper p)) (Bound.pos (.upper q)) = .lt) :
    Bound.cmp (.upper p) (.upper q) = .lt := by
  cases hB : bcmpDeviates (.upper p) (.upper q)
  · exact (bcmp_pos_agree _ _ hB).trans (h : specBoundCmp _ _ = _)
  · cases p <;> cases q <;> simp [bcmpDeviates] at hB
    case including.excluding v1 v2 =>
      simp [Bound.pos, pCmp, xCmp, hB, Ordering.then, natCmp] at h

/-- An unbounded rmin of two upper bounds forces the left one to be
unbounded. -/
theorem rmin_uu_unb {q1 q2 : Predicate}
    (h : rmin (.upper q1) (.upper q2) = .upper .unbounded) :
    q1 = .unbounded := by
  unfold rmin at h
  split at h
  · rename_i hc
    injection h with h2
    rw [h2] at hc
    cases q1 <;> simp [Bound.cmp] at hc
  · exact Bound.upper.inj h

theorem rmax_self (a : Bound) : rmax a a = a := by
  simp [rmax, bcmp_refl]

theorem rmin_self (a : Bound) : rmin a a = a := by
  simp [rmin, bcmp_refl]

/-- Unfolding ComparatorSet::difference when the overlap exists. -/
theorem diff_unfold {s o ov : ComparatorSet}
    (h : s.intersect o = some ov) :
    s.difference o =
      (if ComparatorSet.beq ov s then none
      else if blt s.lower ov.lower && blt ov.upper s.upper then
        match ComparatorSet.new s.lower (.upper ov.lower.predicate.flip),
              ComparatorSet.new (.lower ov.upper.predicate.flip) s.upper with
        | some f1, some f2 => some [f1, f2]
        | _, _ => none
      else if blt s.lower ov.lower then
        (ComparatorSet.new s.lower (.upper ov.lower.predicate.flip)).map
          (fun f => [f])
      else
        (ComparatorSet.new (.lower ov.upper.predicate.flip) s.upper).map
          (fun f => [f])) := by
  unfold ComparatorSet.difference
  rw [h]

/-- Unfolding ComparatorSet::difference when there is no overlap. -/
theorem diff_none {s o : ComparatorSet}
    (h : s.intersect o = none) : s.difference o = some [s] := by
  unfold ComparatorSet.difference
  rw [h]

/-- A validly constructed set subtracted from itself leaves nothing. -/
theorem diff_self {s : ComparatorSet} (hws : s.wf = true)
    (hval : ComparatorSet.new s.lower s.upper = some s) :
    s.difference s = none := by
  rcases wf_dest hws with ⟨p1, q1, hsl, hsu⟩
  rcases s with ⟨su, sl⟩
  replace hsl : sl = .lower p1 := hsl
  replace hsu : su = .upper q1 := hsu
  subst hsl
  subst hsu
  have hI : ComparatorSet.intersect ⟨.upper q1, .lower p1⟩
      ⟨.upper q1, .lower p1⟩ = some ⟨.upper q1, .lower p1⟩ := by
    show ComparatorSet.new (rmax (.lower p1) (.lower p1))
      (rmin (.upper q1) (.upper q1)) = _
    rw [rmax_self, rmin_self]
    exact hval
  rw [diff_unfold hI, if_pos (csbeq_refl _)]

/-- Every piece ComparatorSet::difference returns lies inside the left
operand (and in particular the unwraps in its two-piece branch never
fire for well oriented sets). -/
theorem difference_sat_left {s o : ComparatorSet}
    {pieces : List ComparatorSet} {cs : ComparatorSet} {v : Version}
    (hws : s.wf = true) (hwo : o.wf = true)
    (hd : s.difference o = some pieces) (hmem : cs ∈ pieces)
    (hv : cs.satisfies v = true) : s.satisfies v = true := by
  rcases wf_dest hws with ⟨p1, q1, hsl, hsu⟩
  rcases wf_dest hwo with ⟨p2, q2, hol, hou⟩
  rcases s with ⟨su, sl⟩
  rcases o with ⟨ou, ol⟩
  replace hsl : sl = .lower p1 := hsl
  replace hsu : su = .upper q1 := hsu
  replace hol : ol = .lower p2 := hol
  replace hou : ou = .upper q2 := hou
  subst hsl
  subst hsu
  subst hol
  subst hou
  rcases hI : ComparatorSet.intersect ⟨.upper q1, .lower p1⟩
      ⟨.upper q2, .lower p2⟩ with _ | ov
  · rw [diff_none hI] at hd
    injection hd with hp
    subst hp
    rw [List.mem_singleton] at hmem
    subst hmem
    exact hv
  · have hIn : ComparatorSet.new (rmax (.lower p1) (.lower p2))
        (rmin (.upper q1) (.upper q2)) = some ov := hI
    obtain ⟨pm, hpm⟩ : ∃ pm, rmax (.lower p1) (.lower p2) = .lower pm := by
      rcases rmax_choice (.lower p1) (.lower p2) with h2 | h2
      · exact ⟨p1, h2⟩
      · exact ⟨p2, h2⟩
    obtain ⟨qm, hqm⟩ : ∃ qm, rmin (.upper q1) (.upper q2) = .upper qm := by
      rcases rmin_choice (.upper q1) (.upper q2) with h2 | h2
      · exact ⟨q1, h2⟩
      · exact ⟨q2, h2⟩
    rw [hpm, hqm] at hIn
    have hovs := new_shape hIn
    subst hovs
    have hIpos := new_lu_pos hIn
    have hmaxl := rmax_ll_ge_left p1 p2
    rw [hpm] at hmaxl
    have hminu := rmin_uu_le_left q1 q2
    rw [hqm] at hminu
    rw [diff_unfold hI] at hd
    simp only [Bound.predicate] at hd
    cases hbeq : ComparatorSet.beq ⟨.upper qm, .lower pm⟩
        ⟨.upper q1, .lower p1⟩
    case true => simp [hbeq] at hd
    case false =>
    simp only [hbeq] at hd
    rw [if_neg (by simp)] at hd
    cases hb1 : blt (.lower p1) (.lower pm)
    case false =>
      rw [if_neg (by simp [hb1]), if_neg (by simp [hb1])] at hd
      rcases hn : ComparatorSet.new (.lower qm.flip) (.upper q1)
          with _ | f2
      · rw [hn] at hd
        cases hd
      · rw [hn] at hd
        injection hd with hp
        subst hp
        rw [List.mem_singleton] at hmem
        subst hmem
        have hf2s := new_shape hn
        rw [hf2s] at hv
        by_cases hqmu : qm = .unbounded
        · exfalso
          subst hqmu
          have hq1u : q1 = .unbounded := rmin_uu_unb hqm
          subst hq1u
          have hcmp1 : Bound.cmp (.lower p1) (.lower pm) ≠ .lt :=
            blt_false_iff.mp hb1
          have hcmp2 : Bound.cmp (.lower p1) (.lower pm) ≠ .gt := by
            rw [bcmp_ll_pos]
            exact hmaxl
          have hcmpe : Bound.cmp (.lower pm) (.lower p1) = .eq := by
            rcases hc : Bound.cmp (.lower p1) (.lower pm) with _ | _ | _
            · exact absurd hc hcmp1
            · rw [bcmp_ll_pos] at hc ⊢
              exact (pCmp_law.comap Bound.pos).eq_symm hc
            · exact absurd hc hcmp2
          have hbeq2 : ComparatorSet.beq ⟨.upper .unbounded, .lower pm⟩
              ⟨.upper .unbounded, .lower p1⟩ = true := by
            unfold ComparatorSet.beq
            simp only
            rw [bcmp_ll_eq_beq hcmpe]
            rfl
          rw [hbeq2] at hbeq
          cases hbeq
        · rcases piece2_sat_sub hqmu hmaxl hIpos hv with ⟨hl, hu⟩
          exact sat_join hl hu
    case true =>
      have hpmne : pm ≠ .unbounded := pm_ne_unb_of_blt (blt_iff.mp hb1)
      have hposlt1 : pCmp (Bound.pos (.lower p1)) (Bound.pos (.lower pm))
          = .lt := by
        rw [← bcmp_ll_pos]
        exact blt_iff.mp hb1
      have hn1 := new_lu_some (pred_step hpmne hposlt1)
      cases hb2 : blt (.upper qm) (.upper q1)
      case true =>
        rw [if_pos (by simp [hb1, hb2])] at hd
        have hqmne : qm ≠ .unbounded := qm_ne_unb_of_blt (blt_iff.mp hb2)
        have hposlt2 := rmin_lt_pos hqm (blt_iff.mp hb2)
        have hn2 := new_lu_some (succ_step hqmne hposlt2)
        rw [hn1, hn2] at hd
        injection hd with hp
        subst hp
        rcases List.mem_cons.mp hmem with he | hmem2
        · subst he
          rcases piece1_sat_sub hpmne hIpos hminu hv with ⟨hl, hu⟩
          exact sat_join hl hu
        · rw [List.mem_singleton] at hmem2
          subst hmem2
          rcases piece2_sat_sub hqmne hmaxl hIpos hv with ⟨hl, hu⟩
          exact sat_join hl hu
      case false =>
        rw [if_neg (by simp [hb2]), if_pos (by simp [hb1])] at hd
        rw [hn1] at hd
        injection hd with hp
        subst hp
        rw [List.mem_singleton] at hmem
        subst hmem
        rcases piece1_sat_sub hpmne hIpos hminu hv with ⟨hl, hu⟩
        exact sat_join hl hu

/-- Whatever the left operand accepts is accepted by the overlap or by
one of the difference pieces: intersection and difference cover the left
operand. -/
theorem difference_cover {s o : ComparatorSet} {v : Version}
    (hws : s.wf = true) (hwo : o.wf = true) (hs : s.satisfies v = true) :
    (∃ C, s.intersect o = some C ∧ C.satisfies v = true) ∨
    (∃ pieces, s.difference o = some pieces ∧
      ∃ cs, cs ∈ pieces ∧ cs.satisfies v = true) := by
  rcases wf_dest hws with ⟨p1, q1, hsl, hsu⟩
  rcases wf_dest hwo with ⟨p2, q2, hol, hou⟩
  rcases s with ⟨su, sl⟩
  rcases o with ⟨ou, ol⟩
  replace hsl : sl = .lower p1 := hsl
  replace hsu : su = .upper q1 := hsu
  replace hol : ol = .lower p2 := hol
  replace hou : ou = .upper q2 := hou
  subst hsl
  subst hsu
  subst hol
  subst hou
  have hsl2 : lowerSat (.lower p1) v = true := (sat_split hs).1
  have hsu2 : upperSat (.upper q1) v = true := (sat_split hs).2
  rcases hI : ComparatorSet.intersect ⟨.upper q1, .lower p1⟩
      ⟨.upper q2, .lower p2⟩ with _ | ov
  · exact Or.inr ⟨_, diff_none hI, _, List.mem_singleton.mpr rfl, hs⟩
  · have hIn : ComparatorSet.new (rmax (.lower p1) (.lower p2))
        (rmin (.upper q1) (.upper q2)) = some ov := hI
    obtain ⟨pm, hpm⟩ : ∃ pm, rmax (.lower p1) (.lower p2) = .lower pm := by
      rcases rmax_choice (.lower p1) (.lower p2) with h2 | h2
      · exact ⟨p1, h2⟩
      · exact ⟨p2, h2⟩
    obtain ⟨qm, hqm⟩ : ∃ qm, rmin (.upper q1) (.upper q2) = .upper qm := by
      rcases rmin_choice (.upper q1) (.upper q2) with h2 | h2
      · exact ⟨q1, h2⟩
      · exact ⟨q2, h2⟩
    rw [hpm, hqm] at hIn
    have hovs := new_shape hIn
    subst hovs
    have hmaxl := rmax_ll_ge_left p1 p2
    rw [hpm] at hmaxl
    cases hovSat : ComparatorSet.satisfies ⟨.upper qm, .lower pm⟩ v
    case true => exact Or.inl ⟨_, rfl, hovSat⟩
    case false =>
    right
    have hbeq : ComparatorSet.beq ⟨.upper qm, .lower pm⟩
        ⟨.upper q1, .lower p1⟩ = false := by
      cases hb : ComparatorSet.beq ⟨.upper qm, .lower pm⟩
          ⟨.upper q1, .lower p1⟩
      · rfl
      · rw [sat_congr hb v, hs] at hovSat
        cases hovSat
    cases hL : lowerSat (.lower pm) v
    case false =>
      have hpmne : pm ≠ .unbounded := by
        intro he
        rw [he] at hL
        simp [lowerSat] at hL
      have hposlt1 : pCmp (Bound.pos (.lower p1)) (Bound.pos (.lower pm))
          = .lt :=
        pCmp_law.lt_of_le_of_lt ((lowerSat_iff_pos p1 v).mp hsl2)
          (pCmp_law.gt_iff_lt.mp ((lowerSat_false_iff pm v).mp hL))
      have hb1 : blt (.lower p1) (.lower pm) = true :=
        blt_iff.mpr (by rw [bcmp_ll_pos]; exact hposlt1)
      have hn1 := new_lu_some (pred_step hpmne hposlt1)
      have hf1sat : ComparatorSet.satisfies ⟨.upper pm.flip, .lower p1⟩ v
          = true := by
        refine sat_join hsl2 ?_
        show upperSat (.upper pm.flip) v = true
        rw [flip_upper_compl pm hpmne, hL]
        rfl
      cases hb2 : blt (.upper qm) (.upper q1)
      case true =>
        have hqmne : qm ≠ .unbounded := qm_ne_unb_of_blt (blt_iff.mp hb2)
        have hposlt2 := rmin_lt_pos hqm (blt_iff.mp hb2)
        have hn2 := new_lu_some (succ_step hqmne hposlt2)
        refine ⟨[⟨.upper pm.flip, .lower p1⟩, ⟨.upper q1, .lower qm.flip⟩],
          ?_, ⟨.upper pm.flip, .lower p1⟩, List.mem_cons_self _ _, hf1sat⟩
        rw [diff_unfold hI]
        simp only [Bound.predicate, hbeq]
        rw [if_neg (by simp), if_pos (by simp [hb1, hb2]), hn1, hn2]
      case false =>
        refine ⟨[⟨.upper pm.flip, .lower p1⟩],
          ?_, ⟨.upper pm.flip, .lower p1⟩, List.mem_singleton.mpr rfl, hf1sat⟩
        rw [diff_unfold hI]
        simp only [Bound.predicate, hbeq]
        rw [if_neg (by simp), if_neg (by simp [hb2]), if_pos (by simp [hb1]),
          hn1]
        rfl
    case true =>
      have hU : upperSat (.upper qm) v = false := by
        cases hU2 : upperSat (.upper qm) v
        · rfl
        · have hsj := sat_join (s := ⟨.upper qm, .lower pm⟩) hL hU2
          rw [hovSat] at hsj
          cases hsj
      have hqmne : qm ≠ .unbounded := by
        intro he
        rw [he] at hU
        simp [upperSat] at hU
      have hposlt2 : pCmp (Bound.pos (.upper qm)) (Bound.pos (.upper q1))
          = .lt :=
        pCmp_law.lt_of_lt_of_le
          (pCmp_law.gt_iff_lt.mp ((upperSat_false_iff qm v).mp hU))
          ((upperSat_iff_pos q1 v).mp hsu2)
      have hb2 : blt (.upper qm) (.upper q1) = true :=
        blt_iff.mpr (bcmp_uu_lt_of_pos hposlt2)
      have hn2 := new_lu_some (succ_step hqmne hposlt2)
      have hf2sat : ComparatorSet.satisfies ⟨.upper q1, .lower qm.flip⟩ v
          = true := by
        refine sat_join ?_ hsu2
        show lowerSat (.lower qm.flip) v = true
        rw [flip_lower_compl qm hqmne, hU]
        rfl
      cases hb1 : blt (.lower p1) (.lower pm)
      case true =>
        have hpmne : pm ≠ .unbounded := pm_ne_unb_of_blt (blt_iff.mp hb1)
        have hposlt1 : pCmp (Bound.pos (.lower p1)) (Bound.pos (.lower pm))
            = .lt := by
          rw [← bcmp_ll_pos]
          exact blt_iff.mp hb1
        have hn1 := new_lu_some (pred_step hpmne hposlt1)
        refine ⟨[⟨.upper pm.flip, .lower p1⟩, ⟨.upper q1, .lower qm.flip⟩],
          ?_, ⟨.upper q1, .lower qm.flip⟩,
          List.mem_cons_of_mem _ (List.mem_singleton.mpr rfl), hf2sat⟩
        rw [diff_unfold hI]
        simp only [Bound.predicate, hbeq]
        rw [if_neg (by simp), if_pos (by simp [hb1, hb2]), hn1, hn2]
      case false =>
        refine ⟨[⟨.upper q1, .lower qm.flip⟩],
          ?_, ⟨.upper q1, .lower qm.flip⟩, List.mem_singleton.mpr rfl, hf2sat⟩
        rw [diff_unfold hI]
        simp only [Bound.predicate, hbeq]
        rw [if_neg (by simp), if_neg (by simp [hb1]), if_neg (by simp [hb1]),
          hn2]
        rfl

theorem wf_mem {r : Range} (h : r.wf = true) {cs : ComparatorSet}
    (hm : cs ∈ r.comparators) : cs.wf = true :=
  List.all_eq_true.mp h cs hm

/-- The shared tail of Range::intersect and Range::difference: the
collected list is wrapped in Some exactly when non-empty. -/
theorem optSat_pred_of_mem {l : List ComparatorSet} {v : Version}
    (h : ∃ C, C ∈ l ∧ C.satisfies v = true) :
    optSat (if l.isEmpty then none else some ⟨l⟩) v = true := by
  rcases h with ⟨C, hm, hC⟩
  rcases l with _ | ⟨a, t⟩
  · cases hm
  · rw [if_neg (by simp)]
    exact List.any_eq_true.mpr ⟨C, hm, hC⟩

theorem optSat_pred_some {l : List ComparatorSet} {v : Version}
    (h : optSat (if l.isEmpty then none else some ⟨l⟩) v = true) :
    ∃ C, C ∈ l ∧ C.satisfies v = true := by
  rcases l with _ | ⟨a, t⟩
  · simp [optSat] at h
  · rw [if_neg (by simp)] at h
    exact List.any_eq_true.mp h

/-- Two ranges sharing a version always produce an intersection
containing it. -/
theorem rint_some_of_sat {r o : Range} {v : Version}
    (hr : r.satisfies v = true) (ho : o.satisfies v = true) :
    optSat (r.intersect o) v = true := by
  obtain ⟨cs, hcsm, hcs⟩ := List.any_eq_true.mp hr
  obtain ⟨ot, hotm, hot⟩ := List.any_eq_true.mp ho
  obtain ⟨C, hCi, hCs⟩ := intersect_some_of_sat hcs hot
  exact optSat_pred_of_mem ⟨C, List.mem_flatMap.mpr
    ⟨cs, hcsm, List.mem_filterMap.mpr ⟨ot, hotm, hCi⟩⟩, hCs⟩

/-- Anything a Range intersection accepts, the left operand accepts. -/
theorem rint_sat_left {r o : Range} {v : Version}
    (hwr : r.wf = true) (hwo : o.wf = true)
    (h : optSat (r.intersect o) v = true) : r.satisfies v = true := by
  obtain ⟨C, hCm, hCs⟩ := optSat_pred_some h
  obtain ⟨lefty, hlm, hCin⟩ := List.mem_flatMap.mp hCm
  obtain ⟨righty, hrm, hCi⟩ := List.mem_filterMap.mp hCin
  exact List.any_eq_true.mpr ⟨lefty, hlm,
    intersect_sat_left (wf_mem hwr hlm) (wf_mem hwo hrm) hCi hCs⟩

/-- Anything a Range difference accepts, the left operand accepts. -/
theorem rdiff_sat_left {r o : Range} {v : Version}
    (hwr : r.wf = true) (hwo : o.wf = true)
    (h : optSat (r.difference o) v = true) : r.satisfies v = true := by
  obtain ⟨C, hCm, hCs⟩ := optSat_pred_some h
  obtain ⟨lefty, hlm, hCin⟩ := List.mem_flatMap.mp hCm
  obtain ⟨righty, hrm, hCi⟩ := List.mem_flatMap.mp hCin
  rcases hdo : lefty.difference righty with _ | pieces
  · rw [hdo] at hCi
    cases hCi
  · rw [hdo] at hCi
    exact List.any_eq_true.mpr ⟨lefty, hlm,
      difference_sat_left (wf_mem hwr hlm) (wf_mem hwo hrm) hdo hCi hCs⟩

/-- A version in the left range lands in the intersection or in the
difference, whenever the right range has at least one comparator. -/
theorem range_partition_fwd {r o : Range} {v : Version}
    (hwr : r.wf = true) (hwo : o.wf = true) (hne : o.comparators ≠ [])
    (hr : r.satisfies v = true) :
    optSat (r.difference o) v = true ∨ optSat (r.intersect o) v = true := by
  obtain ⟨cs, hcsm, hcs⟩ := List.any_eq_true.mp hr
  rcases ho : o.comparators with _ | ⟨o1, ot⟩
  · exact absurd ho hne
  · have ho1m : o1 ∈ o.comparators := by
      rw [ho]
      exact List.mem_cons_self _ _
    rcases difference_cover (wf_mem hwr hcsm) (wf_mem hwo ho1m) hcs with
      ⟨C, hCi, hCs⟩ | ⟨pieces, hdp, cs2, hm2, hs2⟩
    · right
      exact optSat_pred_of_mem ⟨C, List.mem_flatMap.mpr
        ⟨cs, hcsm, List.mem_filterMap.mpr ⟨o1, ho1m, hCi⟩⟩, hCs⟩
    · left
      refine optSat_pred_of_mem ⟨cs2, List.mem_flatMap.mpr
        ⟨cs, hcsm, List.mem_flatMap.mpr ⟨o1, ho1m, ?_⟩⟩, hs2⟩
      rw [hdp]
      exact hm2

/-- A single validly built comparator set, as a one-comparator range,
subtracted from itself leaves nothing. -/
theorem rdiff_single_self {s : ComparatorSet} (hws : s.wf = true)
    (hval : ComparatorSet.new s.lower s.upper = some s) :
    Range.difference ⟨[s]⟩ ⟨[s]⟩ = none := by
  unfold Range.difference
  simp [diff_self hws hval]

/-- C2 counterexample: the intersection of [1.0.0, 2.0.0] with
[1.0.0, 2.0.0) satisfies 2.0.0, which the right operand does not
satisfy, so the intersection does not satisfy exactly the versions both
operands satisfy; and intersect is not commutative on this pair. -/
theorem C2_counterexample :
    optSat (Range.intersect rClosed rHalfOpen) (cVer 2 0 0) = true
    ∧ Range.satisfies rHalfOpen (cVer 2 0 0) = false
    ∧ Range.intersect rClosed rHalfOpen ≠ Range.intersect rHalfOpen rClosed := by
  refine ⟨by decide, by decide, by decide⟩

/-- C2 amended: a version both ranges satisfy is always satisfied by the
intersection, and every version the intersection satisfies is satisfied
by the left operand (the right-operand containment and commutativity
fail, per the counterexample); at the single-interval level intersect is
exactly ComparatorSet::new of the max lower and min upper bound, and the
constructor succeeds exactly when the lower position does not exceed the
upper position. -/
theorem C2_intersection_amended :
    (∀ (r o : Range) (v : Version), r.satisfies v = true →
      o.satisfies v = true → optSat (r.intersect o) v = true)
    ∧ (∀ (r o : Range) (v : Version), r.wf = true → o.wf = true →
      optSat (r.intersect o) v = true → r.satisfies v = true)
    ∧ (∀ s t : ComparatorSet, s.intersect t
        = ComparatorSet.new (rmax s.lower t.lower) (rmin s.upper t.upper))
    ∧ (∀ p q : Predicate, (ComparatorSet.new (.lower p) (.upper q)).isSome
        = true ↔ pCmp (Bound.pos (.lower p)) (Bound.pos (.upper q)) ≠ .gt) := by
  refine ⟨fun r o v hr ho => rint_some_of_sat hr ho,
    fun r o v hwr hwo h => rint_sat_left hwr hwo h,
    fun s t => rfl, fun p q => ?_⟩
  rcases new_lu_cases p q with ⟨h1, h2⟩ | ⟨h1, h2⟩
  · rw [h2]
    simp [h1]
  · rw [h2]
    simp [h1]

/-- Witness for C2 amended at concrete inputs: [1.0.0, 2.0.0]
intersected with itself contains 1.5.0, and the left containment
applies to it. -/
theorem C2_intersection_amended_witness :
    optSat (Range.intersect rClosed rClosed) (cVer 1 5 0) = true
    ∧ Range.satisfies rClosed (cVer 1 5 0) = true :=
  ⟨C2_intersection_amended.1 rClosed rClosed (cVer 1 5 0) (by decide)
      (by decide),
   C2_intersection_amended.2.1 rClosed rClosed (cVer 1 5 0) (by decide)
      (by decide) (by decide)⟩

/-- C3 counterexample: subtracting the two-comparator range
"<1.0.0 || >2.0.0" from itself does not return the empty result: it
returns the whole range again, which still satisfies 0.5.0. -/
theorem C3_counterexample :
    Range.difference rSplit rSplit = some rSplit
    ∧ optSat (Range.difference rSplit rSplit) (cVer 0 5 0) = true := by
  refine ⟨by decide, by decide⟩

/-- C3 amended: self-difference is empty for single-comparator ranges
whose comparator the constructor accepts (multi-comparator
self-difference can be non-empty, per the counterexample); and for well
oriented ranges with a non-empty right operand, difference and
intersection exhaustively partition the left operand. -/
theorem C3_difference_amended :
    (∀ s : ComparatorSet, s.wf = true →
      ComparatorSet.new s.lower s.upper = some s →
      Range.difference ⟨[s]⟩ ⟨[s]⟩ = none)
    ∧ (∀ (r o : Range) (v : Version), r.wf = true → o.wf = true →
      o.comparators ≠ [] →
      (r.satisfies v = true ↔
        (optSat (r.difference o) v = true
          ∨ optSat (r.intersect o) v = true))) := by
  refine ⟨fun s hws hval => rdiff_single_self hws hval,
    fun r o v hwr hwo hne => ⟨range_partition_fwd hwr hwo hne, ?_⟩⟩
  rintro (h | h)
  · exact rdiff_sat_left hwr hwo h
  · exact rint_sat_left hwr hwo h

/-- Witness for C3 amended: [1.0.0, 2.0.0] minus itself is empty, and
the partition equivalence recovers that "<1.0.0 || >2.0.0" satisfies
0.5.0 from its self-difference satisfying it. -/
theorem C3_difference_amended_witness :
    Range.difference ⟨[csClosed]⟩ ⟨[csClosed]⟩ = none
    ∧ Range.satisfies rSplit (cVer 0 5 0) = true :=
  ⟨C3_difference_amended.1 csClosed (by decide) (by decide),
   (C3_difference_amended.2 rSplit rSplit (cVer 0 5 0) (by decide) (by decide)
      (by decide)).mpr (Or.inl (by decide))⟩

/-- C4 counterexample: the grammar has no x wildcard, so
Range::parse("1.2.x") fails outright (an Other error where ".x" starts),
and the plain range "1.2" runs to the next major version, so 1.3.0
satisfies it, where the spec expects satisfaction to stop at 1.3.0. -/
theorem C4_counterexample :
    Range.parse ['1', '.', '2', '.', 'x']
      = .error ⟨['1', '.', '2', '.', 'x'], 3, .Other⟩
    ∧ parseSat ['1', '.', '2'] (mkVersion 1 3 0 0 [] []) = true :=
  ⟨rfl, rfl⟩

/-- C4 amended: a plain version range always bumps the major component:
the closure of plain_version_range maps an explicit major to the
interval from the given version (absent parts zero) up to exclusive
(major+1).0.0.0 tagged with pre-release 0; "1.2" becomes
[1.2.0, 2.0.0-0), "1" becomes [1.0.0, 2.0.0-0), and "*" becomes
[0.0.0, 1.0.0-0) (the star is a literal zero major, not an unbounded
range); 1.2.7 and 1.3.0 both satisfy the range of "1.2". -/
theorem C4_plain_ranges_amended :
    (∀ (ma : Nat) (mi pa re : Option Nat) (pr bu : List Identifier),
      plainBuild (some ma, mi, pa, re, pr, bu)
        = ComparatorSet.new
            (.lower (.including (mkVersion ma (mi.getD 0) (pa.getD 0)
              (re.getD 0) pr bu)))
            (.upper (.excluding (mkVersion (ma + 1) 0 0 0
              [.numeric 0] []))))
    ∧ Range.parse ['1', '.', '2']
        = .ok ⟨[⟨.upper (.excluding (mkVersion 2 0 0 0 [.numeric 0] [])),
            .lower (.including (mkVersion 1 2 0 0 [] []))⟩]⟩
    ∧ Range.parse ['1']
        = .ok ⟨[⟨.upper (.excluding (mkVersion 2 0 0 0 [.numeric 0] [])),
            .lower (.including (cVer 1 0 0))⟩]⟩
    ∧ Range.parse ['*']
        = .ok ⟨[⟨.upper (.excluding (mkVersion 1 0 0 0 [.numeric 0] [])),
            .lower (.including (cVer 0 0 0))⟩]⟩
    ∧ parseSat ['1', '.', '2'] (mkVersion 1 2 7 0 [] []) = true
    ∧ parseSat ['1', '.', '2'] (mkVersion 1 3 0 0 [] []) = true :=
  ⟨fun _ _ _ _ _ _ => rfl, rfl, rfl, rfl, rfl, rfl⟩

/-- C5 counterexample: Range::parse("^1.2.3") does not succeed: the
caret is not in the grammar, and parsing fails with an Other error at
offset 0. -/
theorem C5_counterexample :
    Range.parse ['^', '1', '.', '2', '.', '3']
      = .error ⟨['^', '1', '.', '2', '.', '3'], 0, .Other⟩ := rfl

/-- C5 amended: no caret form exists. The operation parser recognizes
only >=, >, =, <=, < and errors on a caret, and the comparator
alternatives then fall through to a plain version range that consumes
nothing of a caret input, leaving all_consuming to reject it; so
"^1.2.3" is a parse error, not a compatible-release range. -/
theorem C5_caret_amended :
    (∀ rest : List Char, operation ('^' :: rest)
      = .err ⟨'^' :: rest, some .operation, none⟩)
    ∧ (∀ rest : List Char, comparators ('^' :: rest)
      = .ok ('^' :: rest)
          ⟨.upper (.excluding (mkVersion 1 0 0 0 [.numeric 0] [])),
            .lower (.including (mkVersion 0 0 0 0 [] []))⟩)
    ∧ Range.parse ['^', '1', '.', '2', '.', '3']
        = .error ⟨['^', '1', '.', '2', '.', '3'], 0, .Other⟩ :=
  ⟨fun _ => rfl, fun _ => rfl, rfl⟩

set_option maxRecDepth 4000 in
/-- C9 counterexample: a numeric component of twenty nines tops
MAX_SAFE_INTEGER, but the error kind is ParseIntError (the u64
conversion fails first), not MaxIntError; and a 200-character input of
two-byte characters is rejected as too long, because the ceiling is 256
bytes, not 256 characters. -/
theorem C9_counterexample :
    Version.parse (['1', '.', '2', '.'] ++ List.replicate 20 '9')
      = .error ⟨['1', '.', '2', '.'] ++ List.replicate 20 '9', 4,
          .ParseIntError⟩
    ∧ Version.parse (List.replicate 200 'é')
      = .error ⟨List.replicate 200 'é', 0, .MaxLengthError⟩
    ∧ (List.replicate 200 'é').length = 200 :=
  ⟨rfl, rfl, rfl⟩

/-- C9 amended: every input over 256 bytes is rejected up front with
MaxLengthError at offset 0; a numeric component that fits u64 but tops
900719925474099 gives MaxIntError, while one overflowing u64 gives
ParseIntError; the ceiling itself is accepted; and every returned error
carries the original input (the offset field is the byte offset). -/
theorem C9_parse_errors_amended :
    (∀ input : List Char, strBytes input > 256 →
      Version.parse input = .error ⟨input, 0, .MaxLengthError⟩)
    ∧ Version.parse ['1', '.', '2', '.', '9', '0', '0', '7', '1', '9',
        '9', '2', '5', '4', '7', '4', '1', '0', '0']
      = .error ⟨['1', '.', '2', '.', '9', '0', '0', '7', '1', '9', '9',
          '2', '5', '4', '7', '4', '1', '0', '0'], 4,
          .MaxIntError 900719925474100⟩
    ∧ Version.parse ['1', '.', '2', '.', '9', '0', '0', '7', '1', '9',
        '9', '2', '5', '4', '7', '4', '0', '9', '9']
      = .ok (mkVersion 1 2 900719925474099 0 [] [])
    ∧ (∀ (input : List Char) (e : SemverError),
        Version.parse input = .error e → e.input = input) := by
  refine ⟨?_, rfl, rfl, ?_⟩
  · intro input h
    unfold Version.parse
    rw [if_pos h]
  · intro input e h
    unfold Version.parse at h
    split at h
    · injection h with h2
      rw [← h2]
    · split at h
      · cases h
      · injection h with h2
        rw [← h2]
        rfl
      · injection h with h2
        rw [← h2]
        rfl

set_option maxRecDepth 4000 in
/-- Witness for C9 amended: 257 bytes of letters is over the ceiling,
and the error of parsing "x" carries its input. -/
theorem C9_parse_errors_amended_witness :
    Version.parse (List.replicate 257 'a')
      = .error ⟨List.replicate 257 'a', 0, .MaxLengthError⟩
    ∧ (SemverError.mk ['x'] 0 (.Context .version)).input = ['x'] :=
  ⟨C9_parse_errors_amended.1 (List.replicate 257 'a') (by decide),
   C9_parse_errors_amended.2.2.2 ['x'] ⟨['x'], 0, .Context .version⟩ rfl⟩

/-- C10: ComparatorSet::satisfies is pure bound order testing: for a
properly oriented set it holds exactly when the version's position sits
between the two bound positions, with no reference to pre-release
emptiness; concretely, the bracket range [1.0.0,2.0.0] parses and
1.5.0-beta satisfies it even though it carries a pre-release and the
bounds do not. -/
theorem C10_satisfies_no_prerelease_gating :
    (∀ (s : ComparatorSet) (p q : Predicate) (v : Version),
      s.lower = .lower p → s.upper = .upper q →
      (s.satisfies v = true ↔
        (pCmp (Bound.pos (.lower p)) (vpos v) ≠ .gt
          ∧ pCmp (vpos v) (Bound.pos (.upper q)) ≠ .gt)))
    ∧ Range.parse ['[', '1', '.', '0', '.', '0', ',', '2', '.', '0',
        '.', '0', ']'] = .ok rClosed
    ∧ Version.parse ['1', '.', '5', '.', '0', '-', 'b', 'e', 't', 'a']
      = .ok (mkVersion 1 5 0 0 [.alphaNumeric ['b', 'e', 't', 'a']] [])
    ∧ parseSat ['[', '1', '.', '0', '.', '0', ',', '2', '.', '0', '.',
        '0', ']'] (mkVersion 1 5 0 0 [.alphaNumeric ['b', 'e', 't', 'a']] [])
      = true := by
  refine ⟨?_, rfl, rfl, rfl⟩
  intro s p q v hsl hsu
  rcases s with ⟨su, sl⟩
  replace hsl : sl = .lower p := hsl
  replace hsu : su = .upper q := hsu
  subst hsl
  subst hsu
  constructor
  · intro h
    rcases sat_split h with ⟨hl, hu⟩
    exact ⟨(lowerSat_iff_pos p v).mp hl, (upperSat_iff_pos q v).mp hu⟩
  · intro ⟨hl, hu⟩
    exact sat_join ((lowerSat_iff_pos p v).mpr hl)
      ((upperSat_iff_pos q v).mpr hu)

/-- Witness for C10 at the spec's example: 1.5.0-beta sits inside
[1.0.0, 2.0.0] by position, hence satisfies it. -/
theorem C10_satisfies_no_prerelease_gating_witness :
    ComparatorSet.satisfies csClosed
      (mkVersion 1 5 0 0 [.alphaNumeric ['b', 'e', 't', 'a']] []) = true :=
  (C10_satisfies_no_prerelease_gating.1 csClosed
    (.including (cVer 1 0 0)) (.including (cVer 2 0 0))
    (mkVersion 1 5 0 0 [.alphaNumeric ['b', 'e', 't', 'a']] [])
    rfl rfl).mpr ⟨by decide, by decide⟩

theorem sortInsert_mem {a v : Version} {l : List Version}
    (h : a ∈ sortInsert v l) : a = v ∨ a ∈ l := by
  induction l with
  | nil =>
    unfold sortInsert at h
    rw [List.mem_singleton] at h
    exact Or.inl h
  | cons x xs ih =>
    unfold sortInsert at h
    split at h
    · rcases List.mem_cons.mp h with h2 | h2
      · exact Or.inl h2
      · exact Or.inr h2
    · rcases List.mem_cons.mp h with h2 | h2
      · exact Or.inr (h2 ▸ List.mem_cons_self x xs)
      · rcases ih h2 with h3 | h3
        · exact Or.inl h3
        · exact Or.inr (List.mem_cons_of_mem x h3)

theorem sortVersions_mem {a : Version} {l : List Version}
    (h : a ∈ sortVersions l) : a ∈ l := by
  induction l with
  | nil => cases h
  | cons x xs ih =>
    unfold sortVersions at h
    rcases sortInsert_mem h with h2 | h2
    · exact h2 ▸ List.mem_cons_self x xs
    · exact List.mem_cons_of_mem x (ih h2)

/-- Any version pick_version returns came through the pre-release
filter, the sort and the satisfaction test. -/
theorem pick_version_spec {fl : Bool} {req : Range}
    {versions : List Version} {v : Version}
    (h : pick_version fl req versions = some v) :
    v ∈ versions ∧ req.satisfies v = true
      ∧ (req.has_pre_release || v.pre_release.isEmpty) = true := by
  unfold pick_version at h
  simp only at h
  have hsat := List.find?_some h
  have hmem := List.mem_of_find?_eq_some h
  have hmem2 : v ∈ sortVersions (versions.filter
      (fun w => req.has_pre_release || w.pre_release.isEmpty)) := by
    rcases hfl : fl with _ | _ <;> rw [hfl] at hmem
    · rw [if_neg (by simp)] at hmem
      exact hmem
    · rw [if_pos rfl] at hmem
      exact List.mem_reverse.mp hmem
  have hmem3 := sortVersions_mem hmem2
  rw [List.mem_filter] at hmem3
  exact ⟨hmem3.1, hsat, hmem3.2⟩

/-- C8: with pre-releases not opted in, pick_version never returns a
pre-release version; and the result is always None or a satisfying
member of the candidate list, never a panic. Spec-modelled boolean
floating stands for the missing Range::is_floating or force_floating. -/
theorem C8_pick_version_policy :
    (∀ (fl : Bool) (req : Range) (versions : List Version) (v : Version),
      req.has_pre_release = false →
      pick_version fl req versions = some v →
      v.pre_release.isEmpty = true)
    ∧ (∀ (fl : Bool) (req : Range) (versions : List Version),
      pick_version fl req versions = none
        ∨ ∃ v, pick_version fl req versions = some v
            ∧ v ∈ versions ∧ req.satisfies v = true) := by
  constructor
  · intro fl req versions v hpre h
    have h2 := (pick_version_spec h).2.2
    rw [hpre] at h2
    simpa using h2
  · intro fl req versions
    rcases h : pick_version fl req versions with _ | v
    · exact Or.inl rfl
    · exact Or.inr ⟨v, rfl, (pick_version_spec h).1, (pick_version_spec h).2.1⟩

/-- Witness for C8: picking from a one-candidate list under
[1.0.0, 2.0.0] returns the non-pre-release 1.5.0. -/
theorem C8_pick_version_policy_witness :
    (cVer 1 5 0).pre_release.isEmpty = true :=
  C8_pick_version_policy.1 false rClosed [cVer 1 5 0] (cVer 1 5 0)
    (by decide) (by decide)

theorem natToCharsAux_acc (fuel : Nat) : ∀ (n : Nat) (acc : List Char),
    natToCharsAux fuel n acc = natToCharsAux fuel n [] ++ acc := by
  induction fuel with
  | zero => intro n acc; rfl
  | succ f ih =>
    intro n acc
    unfold natToCharsAux
    split
    · rfl
    · rw [ih (n / 10) (Char.ofNat (48 + n % 10) :: acc),
        ih (n / 10) [Char.ofNat (48 + n % 10)], List.append_assoc]
      rfl

theorem natToCharsAux_fuel (n : Nat) : ∀ (f1 f2 : Nat), n < f1 → n < f2 →
    natToCharsAux f1 n [] = natToCharsAux f2 n [] := by
  induction n using Nat.strong_induction_on with
  | _ n ih =>
    intro f1 f2 h1 h2
    cases f1 with
    | zero => omega
    | succ a =>
      cases f2 with
      | zero => omega
      | succ b =>
        unfold natToCharsAux
        split
        · rfl
        · rename_i hn
          have hd : n / 10 < n := Nat.div_lt_self (by omega) (by decide)
          rw [natToCharsAux_acc a, natToCharsAux_acc b,
            ih (n / 10) hd a b (by omega) (by omega)]

theorem natToChars_small {n : Nat} (h : n < 10) :
    natToChars n = [Char.ofNat (48 + n)] := by
  unfold natToChars natToCharsAux
  rw [if_pos h]

theorem natToChars_step (n : Nat) (h : ¬ n < 10) :
    natToChars n = natToChars (n / 10) ++ [Char.ofNat (48 + n % 10)] := by
  have hd : n / 10 < n := Nat.div_lt_self (by omega) (by decide)
  show natToCharsAux (n + 1) n [] = _
  unfold natToCharsAux
  rw [if_neg h, natToCharsAux_acc]
  unfold natToChars
  rw [natToCharsAux_fuel (n / 10) n (n / 10 + 1) (by omega) (by omega)]

theorem digitChar_facts : ∀ k, k < 10 →
    Char.isDigit (Char.ofNat (48 + k)) = true
    ∧ (Char.ofNat (48 + k)).toNat = 48 + k := by
  intro k hk
  interval_cases k <;> exact ⟨rfl, rfl⟩

theorem natToChars_spec (n : Nat) :
    (natToChars n).all Char.isDigit = true
    ∧ digitsVal (natToChars n) = n
    ∧ natToChars n ≠ [] := by
  induction n using Nat.strong_induction_on with
  | _ n ih =>
    by_cases h : n < 10
    · rw [natToChars_small h]
      obtain ⟨h1, h2⟩ := digitChar_facts n h
      refine ⟨by simp [h1], ?_, by simp⟩
      show 0 * 10 + ((Char.ofNat (48 + n)).toNat - 48) = n
      rw [h2]
      omega
    · have hd : n / 10 < n := Nat.div_lt_self (by omega) (by decide)
      obtain ⟨ih1, ih2, _⟩ := ih (n / 10) hd
      rw [natToChars_step n h]
      have hm : n % 10 < 10 := Nat.mod_lt _ (by decide)
      obtain ⟨hm1, hm2⟩ := digitChar_facts (n % 10) hm
      refine ⟨by rw [List.all_append]; simp [ih1, hm1], ?_, by simp⟩
      show List.foldl _ 0 (_ ++ _) = n
      rw [List.foldl_append]
      show digitsVal (natToChars (n / 10)) * 10
        + ((Char.ofNat (48 + n % 10)).toNat - 48) = n
      rw [ih2, hm2]
      have := Nat.div_add_mod n 10
      omega

theorem takeWhile_all_append {p : Char → Bool} {l r : List Char}
    (hl : l.all p = true) (hr : headFalse p r = true) :
    (l ++ r).takeWhile p = l := by
  induction l with
  | nil =>
    cases r with
    | nil => rfl
    | cons c cs =>
      simp only [headFalse, Bool.not_eq_eq_eq_not, Bool.not_true] at hr
      simp [List.takeWhile_cons, hr]
  | cons x xs ih =>
    rw [List.all_cons, Bool.and_eq_true_iff] at hl
    simp [List.takeWhile_cons, hl.1, ih hl.2]

theorem drop_all_append {l r : List Char} :
    (l ++ r).drop l.length = r := List.drop_left l r

theorem digit1_display {n : Nat} {rest : List Char}
    (hr : headFalse Char.isDigit rest = true) :
    digit1 (natToChars n ++ rest) = .ok rest (natToChars n) := by
  obtain ⟨h1, _, h3⟩ := natToChars_spec n
  have ht := takeWhile_all_append h1 hr
  have hne2 : (natToChars n).isEmpty = false := by
    rcases hne : natToChars n with _ | ⟨c, cs⟩
    · exact absurd hne h3
    · rfl
  unfold digit1
  simp only [ht]
  rw [if_neg (by simp [hne2])]
  rw [drop_all_append]

theorem isDigit_ne_plus {c : Char} (h : Char.isDigit c = true) :
    ¬ c = '+' := by
  intro he
  rw [he] at h
  cases h

theorem rustParseU64_natToChars {n : Nat}
    (h : n ≤ 18446744073709551615) :
    rustParseU64 (natToChars n) = some n := by
  obtain ⟨h1, h2, h3⟩ := natToChars_spec n
  unfold rustParseU64 stripPlus
  rcases hne : natToChars n with _ | ⟨c, cs⟩
  · exact absurd hne h3
  · rw [hne] at h1 h2
    have hc : ¬ c = '+' := by
      rw [List.all_cons, Bool.and_eq_true_iff] at h1
      exact isDigit_ne_plus h1.1
    simp only [if_neg hc]
    rw [if_neg (by simp), if_pos h1, if_pos (h2 ▸ h)]
    rw [h2]

theorem number_display {n : Nat} {rest : List Char}
    (hn : n ≤ 900719925474099) (hr : headFalse Char.isDigit rest = true) :
    number (natToChars n ++ rest) = .ok rest n := by
  unfold number
  rw [digit1_display hr]
  simp only [rustParseU64_natToChars (le_trans hn (by decide))]
  rw [if_neg (by omega)]
  rfl

theorem isDigit_identChar {c : Char} (h : Char.isDigit c = true) :
    identChar c = true := by
  have hb : 48 ≤ c.toNat ∧ c.toNat ≤ 57 := by
    unfold Char.isDigit at h
    rw [Bool.and_eq_true_iff] at h
    obtain ⟨h1, h2⟩ := h
    rw [decide_eq_true_iff] at h1 h2
    exact ⟨h1, h2⟩
  have hm : c.toNat % 256 = c.toNat := Nat.mod_eq_of_lt (by omega)
  unfold identChar isAlnumByte
  simp only [hm]
  have h1 : (0x30 ≤ c.toNat && c.toNat ≤ 0x39) = true := by
    rw [Bool.and_eq_true_iff]
    exact ⟨decide_eq_true_iff.mpr (by omega), decide_eq_true_iff.mpr (by omega)⟩
  rw [h1]
  simp

theorem identifier_display {i : Identifier} {rest : List Char}
    (hw : identWf i = true) (hr : headFalse identChar rest = true) :
    identifier (identChars i ++ rest) = .ok rest i := by
  unfold identifier
  cases i with
  | numeric n =>
    unfold identWf at hw
    rw [decide_eq_true_iff] at hw
    obtain ⟨h1, _, _⟩ := natToChars_spec n
    have ha : (natToChars n).all identChar = true := by
      rw [List.all_eq_true] at h1 ⊢
      exact fun c hc => isDigit_identChar (h1 c hc)
    simp only [identChars, takeWhile_all_append ha hr, drop_all_append,
      rustParseU64_natToChars hw]
    rfl
  | alphaNumeric s =>
    unfold identWf at hw
    rw [Bool.and_eq_true_iff] at hw
    obtain ⟨h1, h2⟩ := hw
    simp only [identChars, takeWhile_all_append h1 hr, drop_all_append]
    rw [Option.isNone_iff_eq_none] at h2
    simp only [h2]
    rfl

theorem pand_ok {α β : Type} {p : Parser α} {q : Parser β} {input mid rest}
    {a : α} {b : β} (hp : p input = .ok mid a) (hq : q mid = .ok rest b) :
    pand p q input = .ok rest (a, b) := by
  unfold pand
  rw [hp]
  simp only [hq]

theorem pand_err1 {α β : Type} {p : Parser α} {q : Parser β} {input e}
    (hp : p input = .err e) : pand p q input = .err e := by
  unfold pand
  rw [hp]

theorem pand_err2 {α β : Type} {p : Parser α} {q : Parser β} {input mid e}
    {a : α} (hp : p input = .ok mid a) (hq : q mid = .err e) :
    pand p q input = .err e := by
  unfold pand
  rw [hp]
  simp only [hq]

theorem pmap_ok {α β : Type} {p : Parser α} {f : α → β} {input rest}
    {a : α} (hp : p input = .ok rest a) :
    pmap p f input = .ok rest (f a) := by
  unfold pmap
  rw [hp]

theorem pmap_err {α β : Type} {p : Parser α} {f : α → β} {input e}
    (hp : p input = .err e) : pmap p f input = .err e := by
  unfold pmap
  rw [hp]

theorem pcut_ok {α : Type} {p : Parser α} {input rest} {a : α}
    (hp : p input = .ok rest a) : pcut p input = .ok rest a := by
  unfold pcut
  rw [hp]

theorem popt_ok {α : Type} {p : Parser α} {input rest} {a : α}
    (hp : p input = .ok rest a) : popt p input = .ok rest (some a) := by
  unfold popt
  rw [hp]

theorem popt_err {α : Type} {p : Parser α} {input e}
    (hp : p input = .err e) : popt p input = .ok input none := by
  unfold popt
  rw [hp]

theorem ppreceded_ok {α β : Type} {a : Parser α} {b : Parser β}
    {input mid rest} {x : α} {y : β} (ha : a input = .ok mid x)
    (hb : b mid = .ok rest y) : ppreceded a b input = .ok rest y :=
  pmap_ok (pand_ok ha hb)

theorem ppreceded_err1 {α β : Type} {a : Parser α} {b : Parser β}
    {input e} (ha : a input = .err e) : ppreceded a b input = .err e :=
  pmap_err (pand_err1 ha)

theorem ptag_one_ok (d : Char) (t : List Char) :
    ptag [d] (d :: t) = .ok t [d] := by
  unfold ptag
  rw [if_pos (by simp [List.isPrefixOf])]
  rfl

theorem ptag_one_fail {d c : Char} (t : List Char) (h : ¬ d = c) :
    ptag [d] (c :: t) = .err ⟨c :: t, none, none⟩ := by
  unfold ptag
  rw [if_neg]
  intro h2
  simp [List.isPrefixOf] at h2
  exact h h2

theorem ptag_one_nil (d : Char) : ptag [d] [] = .err ⟨[], none, none⟩ := by
  rfl

theorem sepStop_headFalse {r : List Char} (h : sepStop r = true) :
    headFalse identChar r = true := by
  cases r with
  | nil => rfl
  | cons c t =>
    unfold sepStop at h
    rw [Bool.and_eq_true_iff] at h
    exact h.1

theorem sepStop_dot_fail {r : List Char} (h : sepStop r = true) :
    ptag ['.'] r = .err ⟨r, none, none⟩ := by
  cases r with
  | nil => rfl
  | cons c t =>
    unfold sepStop at h
    rw [Bool.and_eq_true_iff] at h
    refine ptag_one_fail t ?_
    intro he
    rw [← he] at h
    simp at h

theorem headFalse_tail (xs : List Identifier) {rest : List Char}
    (hr : sepStop rest = true) :
    headFalse identChar (tailChars xs ++ rest) = true := by
  cases xs with
  | nil => exact sepStop_headFalse hr
  | cons x t => rfl

theorem sepLoop_display (xs : List Identifier) :
    ∀ (fuel : Nat) (rest : List Char) (acc : List Identifier),
    xs.all identWf = true → sepStop rest = true →
    (tailChars xs).length < fuel →
    sepList1Loop (ptag ['.']) identifier fuel (tailChars xs ++ rest) acc
      = .ok rest (acc ++ xs) := by
  induction xs with
  | nil =>
    intro fuel rest acc _ hr hf
    cases fuel with
    | zero => omega
    | succ f =>
      show sepList1Loop (ptag ['.']) identifier (f + 1) rest acc = _
      unfold sepList1Loop
      rw [sepStop_dot_fail hr, List.append_nil]
  | cons x xs ih =>
    intro fuel rest acc hw hr hf
    rw [List.all_cons, Bool.and_eq_true_iff] at hw
    cases fuel with
    | zero =>
      unfold tailChars at hf
      simp at hf
    | succ f =>
      show sepList1Loop (ptag ['.']) identifier (f + 1)
        (('.' :: identChars x ++ tailChars xs) ++ rest) acc = _
      rw [show ('.' :: identChars x ++ tailChars xs) ++ rest
        = '.' :: (identChars x ++ (tailChars xs ++ rest)) by simp]
      unfold sepList1Loop
      simp only [ptag_one_ok]
      rw [if_neg (by simp)]
      simp only [identifier_display hw.1 (headFalse_tail xs hr)]
      rw [ih f rest (acc ++ [x]) hw.2 hr
        (by unfold tailChars at hf; simp [List.length_append] at hf ⊢; omega)]
      simp

theorem sepList1_display (x : Identifier) (xs : List Identifier)
    {rest : List Char} (hw : (x :: xs).all identWf = true)
    (hr : sepStop rest = true) :
    sepList1 (ptag ['.']) identifier
      (identChars x ++ tailChars xs ++ rest) = .ok rest (x :: xs) := by
  rw [List.all_cons, Bool.and_eq_true_iff] at hw
  rw [show identChars x ++ tailChars xs ++ rest
    = identChars x ++ (tailChars xs ++ rest) by simp]
  unfold sepList1
  simp only [identifier_display hw.1 (headFalse_tail xs hr)]
  rw [sepLoop_display xs _ rest [x] hw.2 hr
    (by simp [List.length_append]; omega)]
  rfl

theorem pre_release_display (x : Identifier) (xs : List Identifier)
    {rest : List Char} (hw : (x :: xs).all identWf = true)
    (hr : sepStop rest = true) :
    pre_release ('-' :: (identChars x ++ tailChars xs ++ rest))
      = .ok rest (x :: xs) := by
  unfold pre_release
  rw [ppreceded_ok (ptag_one_ok '-' _) (sepList1_display x xs hw hr)]
  rfl

theorem pre_release_fail {c : Char} (t : List Char) (hc : ¬ c = '-') :
    pre_release (c :: t)
      = .err ⟨c :: t, some .preReleaseVersion, none⟩ := by
  unfold pre_release
  rw [ppreceded_err1 (ptag_one_fail t (fun he => hc he.symm))]
  rfl

theorem pre_release_nil :
    pre_release [] = .err ⟨[], some .preReleaseVersion, none⟩ := rfl

theorem build_display (x : Identifier) (xs : List Identifier)
    {rest : List Char} (hw : (x :: xs).all identWf = true)
    (hr : sepStop rest = true) :
    build ('+' :: (identChars x ++ tailChars xs ++ rest))
      = .ok rest (x :: xs) := by
  unfold build
  rw [ppreceded_ok (ptag_one_ok '+' _) (sepList1_display x xs hw hr)]
  rfl

theorem build_fail {c : Char} (t : List Char) (hc : ¬ c = '+') :
    build (c :: t) = .err ⟨c :: t, some .buildVersion, none⟩ := by
  unfold build
  rw [ppreceded_err1 (ptag_one_fail t (fun he => hc he.symm))]
  rfl

theorem build_nil :
    build [] = .err ⟨[], some .buildVersion, none⟩ := rfl

theorem palt_cons2_ok {α : Type} {p q : Parser α} {ps : List (Parser α)}
    {input rest : List Char} {v : α} (h : p input = .ok rest v) :
    palt (p :: q :: ps) input = .ok rest v := by
  have h2 : palt (p :: q :: ps) input
      = (match p input with
         | .ok rest v => .ok rest v
         | .err _ => palt (q :: ps) input
         | .fail e => .fail e) := rfl
  rw [h2, h]

theorem palt_cons2_err {α : Type} {p q : Parser α} {ps : List (Parser α)}
    {input : List Char} {e : SemverParseError} (h : p input = .err e) :
    palt (p :: q :: ps) input = palt (q :: ps) input := by
  have h2 : palt (p :: q :: ps) input
      = (match p input with
         | .ok rest v => .ok rest v
         | .err _ => palt (q :: ps) input
         | .fail e => .fail e) := rfl
  rw [h2, h]

theorem palt_one {α : Type} {p : Parser α} {input : List Char} :
    palt [p] input = p input := rfl

theorem extras_display (pre bu : List Identifier)
    (hwp : pre.all identWf = true) (hwb : bu.all identWf = true) :
    extras (displayIdents '-' pre ++ displayIdents '+' bu)
      = .ok [] (pre, bu) := by
  cases pre with
  | nil =>
    cases bu with
    | nil => rfl
    | cons y ys =>
      show extras ('+' :: identChars y ++ tailChars ys) = _
      rw [show ('+' :: identChars y ++ tailChars ys : List Char)
        = '+' :: (identChars y ++ tailChars ys) by simp]
      have hb : build ('+' :: (identChars y ++ tailChars ys))
          = .ok [] (y :: ys) := by
        have h2 := @build_display y ys [] hwb rfl
        rwa [List.append_nil] at h2
      have hpf := pre_release_fail (c := '+')
        (identChars y ++ tailChars ys) (by decide)
      have halt : palt [pmap (pand pre_release build) Extras.ReleaseAndBuild,
          pmap pre_release Extras.Release, pmap build Extras.Build]
          ('+' :: (identChars y ++ tailChars ys))
          = .ok [] (Extras.Build (y :: ys)) := by
        rw [palt_cons2_err (pmap_err (pand_err1 hpf)),
          palt_cons2_err (pmap_err hpf), palt_one, pmap_ok hb]
      unfold extras
      rw [pmap_ok (popt_ok halt)]
      rfl
  | cons x xs =>
    cases bu with
    | nil =>
      show extras (('-' :: identChars x ++ tailChars xs) ++ []) = _
      rw [List.append_nil,
        show ('-' :: identChars x ++ tailChars xs : List Char)
          = '-' :: (identChars x ++ tailChars xs) by simp]
      have hp : pre_release ('-' :: (identChars x ++ tailChars xs))
          = .ok [] (x :: xs) := by
        have h2 := @pre_release_display x xs [] hwp rfl
        rwa [List.append_nil] at h2
      have halt : palt [pmap (pand pre_release build) Extras.ReleaseAndBuild,
          pmap pre_release Extras.Release, pmap build Extras.Build]
          ('-' :: (identChars x ++ tailChars xs))
          = .ok [] (Extras.Release (x :: xs)) := by
        rw [palt_cons2_err (pmap_err (pand_err2 hp build_nil)),
          palt_cons2_ok (pmap_ok hp)]
      unfold extras
      rw [pmap_ok (popt_ok halt)]
      rfl
    | cons y ys =>
      show extras (('-' :: identChars x ++ tailChars xs)
        ++ ('+' :: identChars y ++ tailChars ys)) = _
      rw [show (('-' :: identChars x ++ tailChars xs)
          ++ ('+' :: identChars y ++ tailChars ys) : List Char)
        = '-' :: (identChars x ++ tailChars xs
          ++ ('+' :: (identChars y ++ tailChars ys))) by simp]
      have hb : build ('+' :: (identChars y ++ tailChars ys))
          = .ok [] (y :: ys) := by
        have h2 := @build_display y ys [] hwb rfl
        rwa [List.append_nil] at h2
      have hp : pre_release ('-' :: (identChars x ++ tailChars xs
          ++ ('+' :: (identChars y ++ tailChars ys))))
          = .ok ('+' :: (identChars y ++ tailChars ys)) (x :: xs) :=
        pre_release_display x xs hwp rfl
      have halt : palt [pmap (pand pre_release build) Extras.ReleaseAndBuild,
          pmap pre_release Extras.Release, pmap build Extras.Build]
          ('-' :: (identChars x ++ tailChars xs
            ++ ('+' :: (identChars y ++ tailChars ys))))
          = .ok [] (Extras.ReleaseAndBuild (x :: xs, y :: ys)) := by
        rw [palt_cons2_ok (pmap_ok (pand_ok hp hb))]
      unfold extras
      rw [pmap_ok (popt_ok halt)]
      rfl

theorem version_core_display {ma mi pa re : Nat} {rest : List Char}
    (hma : ma ≤ 900719925474099) (hmi : mi ≤ 900719925474099)
    (hpa : pa ≤ 900719925474099) (hre : re ≤ 900719925474099)
    (hr1 : headFalse Char.isDigit rest = true)
    (hr2 : ptag ['.'] rest = .err ⟨rest, none, none⟩) :
    version_core (natToChars ma ++ '.' :: (natToChars mi ++ '.' ::
      (natToChars pa ++ (if 0 < re then '.' :: natToChars re else [])
        ++ rest)))
      = .ok rest (ma, mi, pa, re) := by
  by_cases h0 : 0 < re
  · rw [if_pos h0,
      show natToChars pa ++ ('.' :: natToChars re) ++ rest
        = natToChars pa ++ ('.' :: (natToChars re ++ rest)) by simp]
    have hD : number (natToChars re ++ rest) = .ok rest re :=
      number_display hre hr1
    have hC : number (natToChars pa ++ ('.' :: (natToChars re ++ rest)))
        = .ok ('.' :: (natToChars re ++ rest)) pa :=
      number_display hpa (by rfl)
    have hB : number (natToChars mi ++ '.' :: (natToChars pa
        ++ ('.' :: (natToChars re ++ rest))))
        = .ok ('.' :: (natToChars pa ++ ('.' :: (natToChars re ++ rest)))) mi :=
      number_display hmi (by rfl)
    have hA : number (natToChars ma ++ '.' :: (natToChars mi ++ '.' ::
        (natToChars pa ++ ('.' :: (natToChars re ++ rest)))))
        = .ok ('.' :: (natToChars mi ++ '.' :: (natToChars pa
            ++ ('.' :: (natToChars re ++ rest))))) ma :=
      number_display hma (by rfl)
    unfold version_core
    rw [palt_cons2_ok (pmap_ok (pand_ok hA (pand_ok (ptag_one_ok '.' _)
      (pand_ok (pcut_ok hB) (pand_ok (ptag_one_ok '.' _)
        (pand_ok (pcut_ok hC) (pand_ok (ptag_one_ok '.' _)
          (pcut_ok hD))))))))]
    rfl
  · rw [if_neg h0, List.append_nil]
    have hre0 : re = 0 := by omega
    have hC : number (natToChars pa ++ rest) = .ok rest pa :=
      number_display hpa hr1
    have hB : number (natToChars mi ++ '.' :: (natToChars pa ++ rest))
        = .ok ('.' :: (natToChars pa ++ rest)) mi :=
      number_display hmi (by rfl)
    have hA : number (natToChars ma ++ '.' :: (natToChars mi ++ '.' ::
        (natToChars pa ++ rest)))
        = .ok ('.' :: (natToChars mi ++ '.' :: (natToChars pa ++ rest))) ma :=
      number_display hma (by rfl)
    unfold version_core
    rw [palt_cons2_err (pmap_err (pand_err2 hA (pand_err2 (ptag_one_ok '.' _)
      (pand_err2 (pcut_ok hB) (pand_err2 (ptag_one_ok '.' _)
        (pand_err2 (pcut_ok hC) (pand_err1 hr2)))))))]
    rw [palt_cons2_ok (pmap_ok (pand_ok hA (pand_ok (ptag_one_ok '.' _)
      (pand_ok (pcut_ok hB) (pand_ok (ptag_one_ok '.' _)
        (pcut_ok hC))))))]
    rw [hre0]
    rfl

theorem version_display {v : Version} (hw : vWf v = true) :
    version (vDisplay v) = .ok [] v := by
  unfold vWf at hw
  simp only [Bool.and_eq_true_iff, decide_eq_true_iff] at hw
  obtain ⟨⟨⟨⟨⟨hma, hmi⟩, hpa⟩, hre⟩, hwp⟩, hwb⟩ := hw
  have hshape : vDisplay v = natToChars v.major ++ '.' ::
      (natToChars v.minor ++ '.' :: (natToChars v.patch
        ++ (if 0 < v.revision then '.' :: natToChars v.revision else [])
        ++ (displayIdents '-' v.pre_release
          ++ displayIdents '+' v.build))) := by
    simp [vDisplay]
  have hr1 : headFalse Char.isDigit (displayIdents '-' v.pre_release
      ++ displayIdents '+' v.build) = true := by
    cases hp : v.pre_release with
    | cons x xs => rfl
    | nil =>
      cases hb : v.build with
      | cons y ys => rfl
      | nil => rfl
  have hr2 : ptag ['.'] (displayIdents '-' v.pre_release
      ++ displayIdents '+' v.build)
      = .err ⟨displayIdents '-' v.pre_release
          ++ displayIdents '+' v.build, none, none⟩ := by
    cases hp : v.pre_release with
    | cons x xs => exact ptag_one_fail _ (by decide)
    | nil =>
      cases hb : v.build with
      | cons y ys => exact ptag_one_fail _ (by decide)
      | nil => rfl
  unfold version
  rw [hshape]
  rw [pmap_ok (pand_ok (version_core_display hma hmi hpa hre hr1 hr2)
    (extras_display _ _ hwp hwb))]
  rfl

theorem parse_display {v : Version} (hw : vWf v = true)
    (hlen : strBytes (vDisplay v) ≤ 256) :
    Version.parse (vDisplay v) = .ok v := by
  unfold Version.parse
  rw [if_neg (by omega)]
  unfold allConsuming
  simp only [version_display hw]

theorem addContext_ok {α : Type} {c : Ctx} {r : NomResult α} {rest v}
    (h : addContext c r = .ok rest v) : r = .ok rest v := by
  cases r <;> simp [addContext] at h ⊢
  exact h

theorem pmap_ok_inv {α β : Type} {p : Parser α} {f : α → β} {input rest b}
    (h : pmap p f input = .ok rest b) :
    ∃ a, p input = .ok rest a ∧ f a = b := by
  unfold pmap at h
  rcases hp : p input with _ | _ | _ <;> rw [hp] at h <;> cases h
  exact ⟨_, rfl, rfl⟩

theorem pand_ok_inv {α β : Type} {p : Parser α} {q : Parser β}
    {input rest} {r : α × β} (h : pand p q input = .ok rest r) :
    ∃ mid, p input = .ok mid r.1 ∧ q mid = .ok rest r.2 := by
  unfold pand at h
  split at h
  · rename_i mid a hp
    split at h
    · rename_i rest2 b hq
      cases h
      exact ⟨mid, hp, hq⟩
    · cases h
    · cases h
  · cases h
  · cases h

theorem pcut_ok_inv {α : Type} {p : Parser α} {input rest} {v : α}
    (h : pcut p input = .ok rest v) : p input = .ok rest v := by
  unfold pcut at h
  rcases hp : p input with _ | _ | _ <;> rw [hp] at h <;> cases h
  rfl

theorem popt_ok_inv {α : Type} {p : Parser α} {input rest}
    {o : Option α} (h : popt p input = .ok rest o) :
    (∃ a, p input = .ok rest a ∧ o = some a) ∨ (o = none ∧ rest = input) := by
  unfold popt at h
  rcases hp : p input with _ | _ | _ <;> rw [hp] at h <;> cases h
  · exact Or.inl ⟨_, rfl, rfl⟩
  · exact Or.inr ⟨rfl, rfl⟩

theorem ppreceded_ok_inv {α β : Type} {a : Parser α} {b : Parser β}
    {input rest} {y : β} (h : ppreceded a b input = .ok rest y) :
    ∃ mid x, a input = .ok mid x ∧ b mid = .ok rest y := by
  obtain ⟨z, hz, he⟩ := pmap_ok_inv h
  obtain ⟨mid, h1, h2⟩ := pand_ok_inv hz
  exact ⟨mid, z.1, h1, he ▸ h2⟩

theorem palt_cons2_inv {α : Type} {p q : Parser α} {ps : List (Parser α)}
    {input rest} {v : α} (h : palt (p :: q :: ps) input = .ok rest v) :
    p input = .ok rest v ∨ palt (q :: ps) input = .ok rest v := by
  have h2 : palt (p :: q :: ps) input
      = (match p input with
         | .ok rest v => .ok rest v
         | .err _ => palt (q :: ps) input
         | .fail e => .fail e) := rfl
  rw [h2] at h
  rcases hp : p input with _ | _ | _ <;> rw [hp] at h
  · cases h
    exact Or.inl rfl
  · exact Or.inr h
  · cases h

theorem number_inv {input rest : List Char} {n : Nat}
    (h : number input = .ok rest n) : n ≤ 900719925474099 := by
  unfold number at h
  have h2 := addContext_ok h
  split at h2
  · split at h2
    · cases h2
    · split at h2
      · cases h2
      · injection h2 with _ h3
        omega
  · cases h2
  · cases h2

theorem rustParseU64_le {s : List Char} {n : Nat}
    (h : rustParseU64 s = some n) : n ≤ 18446744073709551615 := by
  unfold rustParseU64 at h
  simp only at h
  split at h
  · cases h
  · split at h
    · split at h
      · injection h with h2
        omega
      · cases h
    · cases h

theorem identifier_inv {input rest : List Char} {x : Identifier}
    (h : identifier input = .ok rest x) : identWf x = true := by
  unfold identifier at h
  have h2 := addContext_ok h
  simp only at h2
  rcases hp : rustParseU64 (input.takeWhile identChar) with _ | n <;>
    rw [hp] at h2 <;> injection h2 with _ h3 <;> rw [← h3]
  · simp only [identWf]
    rw [List.all_takeWhile]
    simp [hp]
  · simp only [identWf]
    rw [decide_eq_true_iff]
    exact rustParseU64_le hp

theorem sepLoop_all_inv {σ α : Type} {sep : Parser σ} {p : Parser α}
    {Q : α → Bool}
    (hp : ∀ i r v, p i = .ok r v → Q v = true) :
    ∀ (fuel : Nat) (i : List Char) (acc : List α) (rest : List Char)
      (out : List α), acc.all Q = true →
      sepList1Loop sep p fuel i acc = .ok rest out → out.all Q = true := by
  intro fuel
  induction fuel with
  | zero =>
    intro i acc rest out _ h
    unfold sepList1Loop at h
    cases h
  | succ f ih =>
    intro i acc rest out hacc h
    unfold sepList1Loop at h
    split at h
    · cases h
      exact hacc
    · cases h
    · rename_i i1 sv hs
      split at h
      · cases h
      · split at h
        · cases h
          exact hacc
        · cases h
        · rename_i i2 v hpp
          refine ih i2 (acc ++ [v]) rest out ?_ h
          rw [List.all_append, hacc]
          simp [hp i1 i2 v hpp]

theorem sepList1_all_inv {σ α : Type} {sep : Parser σ} {p : Parser α}
    {Q : α → Bool} {input rest : List Char} {out : List α}
    (hp : ∀ i r v, p i = .ok r v → Q v = true)
    (h : sepList1 sep p input = .ok rest out) : out.all Q = true := by
  unfold sepList1 at h
  rcases hf : p input with ⟨i1, v⟩ | _ | _ <;> rw [hf] at h
  · refine sepLoop_all_inv hp _ i1 [v] rest out ?_ h
    simp [hp input i1 v hf]
  · cases h
  · cases h

theorem pre_release_inv {input rest : List Char} {xs : List Identifier}
    (h : pre_release input = .ok rest xs) : xs.all identWf = true := by
  unfold pre_release at h
  obtain ⟨mid, x, _, h2⟩ := ppreceded_ok_inv (addContext_ok h)
  exact sepList1_all_inv (fun i r v hv => identifier_inv hv) h2

theorem build_inv {input rest : List Char} {xs : List Identifier}
    (h : build input = .ok rest xs) : xs.all identWf = true := by
  unfold build at h
  obtain ⟨mid, x, _, h2⟩ := ppreceded_ok_inv (addContext_ok h)
  exact sepList1_all_inv (fun i r v hv => identifier_inv hv) h2

theorem extras_inv {input rest : List Char}
    {pr bu : List Identifier}
    (h : extras input = .ok rest (pr, bu)) :
    pr.all identWf = true ∧ bu.all identWf = true := by
  unfold extras at h
  obtain ⟨o, ho, he⟩ := pmap_ok_inv h
  rcases popt_ok_inv ho with ⟨ex, hex, hoe⟩ | ⟨hoe, _⟩
  · subst hoe
    simp only at he
    rcases palt_cons2_inv hex with h1 | h1
    · obtain ⟨z, hz, hze⟩ := pmap_ok_inv h1
      obtain ⟨mid, hpre, hbld⟩ := pand_ok_inv hz
      rw [← hze] at he
      simp only [Extras.values] at he
      subst he
      exact ⟨pre_release_inv hpre, build_inv hbld⟩
    · rcases palt_cons2_inv h1 with h2 | h2
      · obtain ⟨xs, hxs, hxe⟩ := pmap_ok_inv h2
        rw [← hxe] at he
        simp only [Extras.values] at he
        injection he with he1 he2
        rw [← he1, ← he2]
        exact ⟨pre_release_inv hxs, rfl⟩
      · rw [palt_one] at h2
        obtain ⟨ys, hys, hye⟩ := pmap_ok_inv h2
        rw [← hye] at he
        simp only [Extras.values] at he
        injection he with he1 he2
        rw [← he1, ← he2]
        exact ⟨rfl, build_inv hys⟩
  · subst hoe
    simp only at he
    injection he with he1 he2
    rw [← he1, ← he2]
    exact ⟨rfl, rfl⟩

theorem version_core_inv {input rest : List Char} {q : Nat × Nat × Nat × Nat}
    (h : version_core input = .ok rest q) :
    q.1 ≤ 900719925474099 ∧ q.2.1 ≤ 900719925474099
      ∧ q.2.2.1 ≤ 900719925474099 ∧ q.2.2.2 ≤ 900719925474099 := by
  unfold version_core at h
  have h2 := addContext_ok h
  rcases palt_cons2_inv h2 with h1 | h2b
  · obtain ⟨w, hw, hwe⟩ := pmap_ok_inv h1
    obtain ⟨ma, tg1, mi, tg2, pa, tg3, re⟩ := w
    obtain ⟨m1, hn1, hr1⟩ := pand_ok_inv hw
    obtain ⟨m2, ht1, hr2⟩ := pand_ok_inv hr1
    obtain ⟨m3, hc1, hr3⟩ := pand_ok_inv hr2
    obtain ⟨m4, ht2, hr4⟩ := pand_ok_inv hr3
    obtain ⟨m5, hc2, hr5⟩ := pand_ok_inv hr4
    obtain ⟨m6, ht3, hc3⟩ := pand_ok_inv hr5
    rw [← hwe]
    exact ⟨number_inv hn1, number_inv (pcut_ok_inv hc1),
      number_inv (pcut_ok_inv hc2), number_inv (pcut_ok_inv hc3)⟩
  · rcases palt_cons2_inv h2b with h1 | h2c
    · obtain ⟨w, hw, hwe⟩ := pmap_ok_inv h1
      obtain ⟨ma, tg1, mi, tg2, pa⟩ := w
      obtain ⟨m1, hn1, hr1⟩ := pand_ok_inv hw
      obtain ⟨m2, ht1, hr2⟩ := pand_ok_inv hr1
      obtain ⟨m3, hc1, hr3⟩ := pand_ok_inv hr2
      obtain ⟨m4, ht2, hc2⟩ := pand_ok_inv hr3
      rw [← hwe]
      exact ⟨number_inv hn1, number_inv (pcut_ok_inv hc1),
        number_inv (pcut_ok_inv hc2), Nat.zero_le _⟩
    · rcases palt_cons2_inv h2c with h1 | h2d
      · obtain ⟨w, hw, hwe⟩ := pmap_ok_inv h1
        obtain ⟨ma, tg1, mi⟩ := w
        obtain ⟨m1, hn1, hr1⟩ := pand_ok_inv hw
        obtain ⟨m2, ht1, hc1⟩ := pand_ok_inv hr1
        rw [← hwe]
        exact ⟨number_inv hn1, number_inv (pcut_ok_inv hc1),
          Nat.zero_le _, Nat.zero_le _⟩
      · rw [palt_one] at h2d
        obtain ⟨ma, hn1, hwe⟩ := pmap_ok_inv h2d
        rw [← hwe]
        exact ⟨number_inv hn1, Nat.zero_le _, Nat.zero_le _, Nat.zero_le _⟩

theorem version_inv {input rest : List Char} {v : Version}
    (h : version input = .ok rest v) : vWf v = true := by
  unfold version at h
  obtain ⟨w, hw, hwe⟩ := pmap_ok_inv (addContext_ok h)
  obtain ⟨core, ex⟩ := w
  obtain ⟨m1, hcore, hex⟩ := pand_ok_inv hw
  obtain ⟨pr, bu⟩ := ex
  obtain ⟨h1, h2, h3, h4⟩ := version_core_inv hcore
  obtain ⟨h5, h6⟩ := extras_inv hex
  rw [← hwe]
  unfold vWf mkVersion
  simp only [Bool.and_eq_true_iff, decide_eq_true_iff]
  exact ⟨⟨⟨⟨⟨h1, h2⟩, h3⟩, h4⟩, h5⟩, h6⟩

theorem Version.parse_wf {input : List Char} {v : Version}
    (h : Version.parse input = .ok v) : vWf v = true := by
  unfold Version.parse at h
  split at h
  · cases h
  · split at h
    · rename_i rest2 val heq
      injection h with h2
      rw [← h2]
      unfold allConsuming at heq
      split at heq
      · rename_i hv
        cases heq
        exact version_inv hv
      · cases heq
      · cases heq
      · cases heq
    · cases h
    · cases h

set_option maxRecDepth 8000 in
/-- C7 counterexample: the 256-byte input made of "1-" and 254 letters
parses, but its display prints the omitted minor and patch, reaching
260 bytes, so reparsing the display fails the length ceiling; the round
trip does not hold for every valid parse. -/
theorem C7_counterexample :
    Version.parse ('1' :: '-' :: List.replicate 254 'a')
      = .ok (mkVersion 1 0 0 0 [.alphaNumeric (List.replicate 254 'a')] [])
    ∧ strBytes ('1' :: '-' :: List.replicate 254 'a') = 256
    ∧ strBytes (vDisplay (mkVersion 1 0 0 0
        [.alphaNumeric (List.replicate 254 'a')] [])) = 260
    ∧ Version.parse (vDisplay (mkVersion 1 0 0 0
        [.alphaNumeric (List.replicate 254 'a')] []))
      = .error ⟨vDisplay (mkVersion 1 0 0 0
          [.alphaNumeric (List.replicate 254 'a')] []), 0, .MaxLengthError⟩ :=
  ⟨rfl, rfl, rfl, rfl⟩

/-- C7 amended: every successful parse lands in the canonical set vWf;
every canonical version whose display stays within the 256-byte ceiling
reparses to itself exactly (a round trip even stronger than the claimed
semantic equality); and hence the parse-display-parse trip is the
identity whenever the display fits the ceiling, the proviso the
counterexample shows necessary. -/
theorem C7_round_trip_amended :
    (∀ (input : List Char) (v : Version),
      Version.parse input = .ok v → vWf v = true)
    ∧ (∀ v : Version, vWf v = true → strBytes (vDisplay v) ≤ 256 →
      Version.parse (vDisplay v) = .ok v)
    ∧ (∀ (input : List Char) (v : Version), Version.parse input = .ok v →
      strBytes (vDisplay v) ≤ 256 → Version.parse (vDisplay v) = .ok v) :=
  ⟨fun _ _ h => Version.parse_wf h,
   fun _ hw hl => parse_display hw hl,
   fun _ _ h hl => parse_display (Version.parse_wf h) hl⟩

/-- Witness for C7 amended: the version parsed from
"1.2.3-alpha.1+b.007" (whose 007 normalizes to the numeral 7)
round-trips through its display. -/
theorem C7_round_trip_amended_witness :
    Version.parse (vDisplay (mkVersion 1 2 3 0
      [.alphaNumeric ['a', 'l', 'p', 'h', 'a'], .numeric 1]
      [.alphaNumeric ['b'], .numeric 7]))
      = .ok (mkVersion 1 2 3 0
        [.alphaNumeric ['a', 'l', 'p', 'h', 'a'], .numeric 1]
        [.alphaNumeric ['b'], .numeric 7]) :=
  C7_round_trip_amended.2.2
    ['1', '.', '2', '.', '3', '-', 'a', 'l', 'p', 'h', 'a', '.', '1',
      '+', 'b', '.', '0', '0', '7']
    (mkVersion 1 2 3 0
      [.alphaNumeric ['a', 'l', 'p', 'h', 'a'], .numeric 1]
      [.alphaNumeric ['b'], .numeric 7])
    (by rfl) (by decide)

end Turron
